import Mathlib

/-!
Verification of the adaptive task-dispatch subsystem of the
cursor-ray-cluster-setup repository, as a shallow embedding in Lean 4.

The embedding covers:
* `ray_tasks/resource_utils.py` — `get_optimal_resource_allocation`
* `ray_tasks/error_handling.py` — the `retry` combinator, `ErrorTracker`
* `ray_tasks/task_manager.py` — `distribute_tasks` (single-item and batched
  paths, the drain loop with retries, the call-level timeout, batch
  flattening) and its `file_sizes` validation

Conventions: Python integers are `Nat` where the source values are
non-negative counters, `ℚ` where the source computes ratios; the two
float factors `0.7` / `0.6` applied to available memory are modelled
exactly as multiplication by 7/10 resp. 6/10 with integer truncation,
matching `int(x * 0.7)` up to float rounding.  Nondeterminism of the
execution substrate (which future `ray.wait` reports ready, and whether
the wall-clock deadline has elapsed at a given check) is made explicit
through a schedule oracle.
-/

namespace RayCluster

/-! ## resource_utils.get_optimal_resource_allocation

`SysInfo` packages the two host readings the function takes
(`psutil.cpu_count(logical=True)` and
`psutil.virtual_memory().available`).  `Resources` is the returned dict:
a field is `none` exactly when the corresponding key is absent. -/

structure SysInfo where
  cpu_count : Nat
  available_memory : Nat
deriving DecidableEq, Repr

structure Resources where
  num_cpus : Option Nat := none
  num_gpus : Option Nat := none
  memory : Option Nat := none
deriving DecidableEq, Repr

/-- Shallow embedding of `get_optimal_resource_allocation`
(`ray_tasks/resource_utils.py`, lines 51–99).  The branch structure is
the source's `if/elif` chain verbatim; `file_size` participates only
when no earlier branch matched, mirroring `elif file_size is not None`. -/
def get_optimal_resource_allocation (sys : SysInfo) (task_type : String)
    (file_size : Option Nat := none) (memory_intensive : Bool := false) : Resources :=
  if task_type = "cpu_intensive" then
    { num_cpus := some (max 1 (sys.cpu_count - 1)) }
  else if task_type = "memory_intensive" ∨ memory_intensive then
    { memory := some (sys.available_memory * 7 / 10)
      num_cpus := some (max 1 (sys.cpu_count / 2)) }
  else if task_type = "gpu_required" then
    { num_gpus := some 1, num_cpus := some 1 }
  else
    match file_size with
    | some fs =>
      if fs > 1000000000 then
        { num_cpus := some (max 2 (sys.cpu_count / 2))
          memory := some (sys.available_memory * 6 / 10) }
      else if fs > 100000000 then
        { num_cpus := some 2, memory := some (1024 * 1024 * 1024) }
      else
        { num_cpus := some 1 }
    | none => { num_cpus := some 1 }

/-! ## error_handling.ErrorTracker

Python dicts preserve insertion order, and the report's `max(...)`
tie-break depends on that order, so the two dicts of the tracker are
embedded as insertion-ordered association lists:
`error_counts : type ↦ (count, message ↦ occurrences)`. -/

/-- One entry of `ErrorTracker.error_counts`: the error type, its
`count`, and its `messages` histogram in insertion order. -/
abbrev TypeEntry := String × Nat × List (String × Nat)

structure ErrorTracker where
  error_counts : List TypeEntry
  total_tasks : Nat
  failed_tasks : Nat
deriving DecidableEq, Repr

def ErrorTracker.init : ErrorTracker := ⟨[], 0, 0⟩

/-- `messages[error_message] = messages.get(error_message, 0) + 1` on an
insertion-ordered dict: bump the existing key in place, else append the
key with count 1. -/
def bumpMsg (l : List (String × Nat)) (m : String) : List (String × Nat) :=
  match l with
  | [] => [(m, 1)]
  | (k, v) :: rest => if k = m then (k, v + 1) :: rest else (k, v) :: bumpMsg rest m

/-- The `error_counts` update performed by `record_error`: create the
type's entry if absent, increment its `count`, and bump the message
histogram. -/
def bumpType (l : List TypeEntry) (t m : String) : List TypeEntry :=
  match l with
  | [] => [(t, 1, [(m, 1)])]
  | (k, c, msgs) :: rest =>
    if k = t then (k, c + 1, bumpMsg msgs m) :: rest
    else (k, c, msgs) :: bumpType rest t m

/-- `ErrorTracker.record_success` (`error_handling.py` line 201). -/
def ErrorTracker.record_success (tr : ErrorTracker) : ErrorTracker :=
  { tr with total_tasks := tr.total_tasks + 1 }

/-- `ErrorTracker.record_error` (`error_handling.py` lines 205–221). -/
def ErrorTracker.record_error (tr : ErrorTracker) (t m : String) : ErrorTracker :=
  { error_counts := bumpType tr.error_counts t m
    total_tasks := tr.total_tasks + 1
    failed_tasks := tr.failed_tasks + 1 }

/-- Python's `max(pairs, key=lambda x: x[1])` over a nonempty list of
`(message, count)` pairs: a left fold that replaces the current best
only on a strictly larger count, hence keeps the first maximum. -/
def pyMaxSnd (x : String × Nat) (xs : List (String × Nat)) : String × Nat :=
  xs.foldl (fun best y => if best.2 < y.2 then y else best) x

/-- The `most_common_message` expression of `get_report`:
`max(messages.items(), key=...)[0] if messages else None`. -/
def most_common_message (msgs : List (String × Nat)) : Option String :=
  match msgs with
  | [] => none
  | x :: xs => some (pyMaxSnd x xs).1

/-- Per-type entry of the report produced by `get_report`. -/
structure TypeReport where
  count : Nat
  percentage : ℚ
  mcm : Option String
deriving DecidableEq, Repr

structure Report where
  total_tasks : Nat
  failed_tasks : Nat
  success_rate : ℚ
  error_types : List (String × TypeReport)
deriving DecidableEq, Repr

/-- Shallow embedding of `ErrorTracker.get_report`
(`error_handling.py` lines 223–240). -/
def ErrorTracker.get_report (tr : ErrorTracker) : Report :=
  { total_tasks := tr.total_tasks
    failed_tasks := tr.failed_tasks
    success_rate :=
      if tr.total_tasks = 0 then 0
      else ((tr.total_tasks : ℚ) - (tr.failed_tasks : ℚ)) / (tr.total_tasks : ℚ)
    error_types := tr.error_counts.map (fun e =>
      (e.1,
        { count := e.2.1
          percentage :=
            if tr.failed_tasks = 0 then 0
            else (e.2.1 : ℚ) / (tr.failed_tasks : ℚ)
          mcm := most_common_message e.2.2 })) }

/-! History of tracker operations, for stating properties over every
call sequence. -/

inductive TrackOp
  | succ : TrackOp
  | err : String → String → TrackOp
deriving DecidableEq, Repr

def applyOp (tr : ErrorTracker) : TrackOp → ErrorTracker
  | .succ => tr.record_success
  | .err t m => tr.record_error t m

/-- The tracker state after a sequence of `record_success` /
`record_error` calls, starting from a fresh tracker. -/
def runOps (ops : List TrackOp) : ErrorTracker :=
  ops.foldl applyOp ErrorTracker.init

/-- The `(type, message)` pairs of the error operations of a history,
in order. -/
def errList (ops : List TrackOp) : List (String × String) :=
  ops.filterMap (fun op => match op with | .err t m => some (t, m) | .succ => none)

/-- Number of `record_error` calls in a history. -/
def numErrs (ops : List TrackOp) : Nat := (errList ops).length

/-- Messages of the type-`t` errors of a history, in order. -/
def msgsOf (ops : List TrackOp) (t : String) : List String :=
  (errList ops).filterMap (fun p => if p.1 = t then some p.2 else none)

/-- First occurrence of each element, in order of first occurrence. -/
def firstOccs : List String → List String
  | [] => []
  | x :: xs => x :: (firstOccs xs).filter (fun y => ¬ y = x)

/-- Error types of a history, in order of first occurrence. -/
def typesOf (ops : List TrackOp) : List String :=
  firstOccs ((errList ops).map Prod.fst)

/-- Spec-level message histogram of a message sequence: each distinct
message in first-occurrence order, paired with its number of
occurrences. -/
def histSpec (ms : List String) : List (String × Nat) :=
  (firstOccs ms).map (fun m => (m, ms.count m))

/-- Spec-level contents of `error_counts` after a history. -/
def ecSpec (ops : List TrackOp) : List TypeEntry :=
  (typesOf ops).map (fun t => (t, (msgsOf ops t).length, histSpec (msgsOf ops t)))

/-! ## error_handling.retry

The decorated function's behaviour is abstracted as
`fn : Nat → Except E A`, giving the outcome of its k-th invocation
(0-indexed); `matches_ e` decides whether a raised error belongs to the
`exceptions` tuple.  A run returns the Python control-flow outcome, the
number of times `fn` was invoked, and the retry trace: one event
`(error, attempt_number, slept_delay)` per caught-and-retried error, in
order.  Each event records that `on_retry(error, attempt_number)` was
invoked and then `time.sleep` was called with the pre-multiplication
delay, exactly as in the source (hook first, then sleep, then
`current_delay *= backoff_factor`).  Delays are exact rationals. -/

inductive PyOutcome (E A : Type)
  | ret : A → PyOutcome E A
  | raised : E → PyOutcome E A
  | retNone : PyOutcome E A
deriving DecidableEq, Repr

/-- One iteration step of the `while attempt < max_attempts` loop of
`retry` (`error_handling.py` lines 109–141), by recursion on the number
of loop iterations still permitted (`max_attempts - attempt`).
`calls` is both the number of invocations of `fn` so far and the current
value of `attempt` (every invocation that does not return increments
`attempt` by one). -/
def retryAux (fn : Nat → Except E A) (matches_ : E → Bool) (backoff : ℚ) :
    Nat → Nat → ℚ → List (E × Nat × ℚ) → PyOutcome E A × Nat × List (E × Nat × ℚ)
  | 0, calls, _, evs => (.retNone, calls, evs.reverse)
  | r + 1, calls, d, evs =>
    match fn calls with
    | .ok a => (.ret a, calls + 1, evs.reverse)
    | .error e =>
      if matches_ e then
        if r = 0 then (.raised e, calls + 1, evs.reverse)
        else retryAux fn matches_ backoff r (calls + 1) (d * backoff) ((e, calls + 1, d) :: evs)
      else (.raised e, calls + 1, evs.reverse)

/-- Shallow embedding of a call to a function wrapped by
`retry(max_attempts, delay_seconds, backoff_factor, exceptions, on_retry)`
(`error_handling.py` lines 89–144). -/
def retryRun (max_attempts : Nat) (delay_seconds backoff_factor : ℚ)
    (matches_ : E → Bool) (fn : Nat → Except E A) :
    PyOutcome E A × Nat × List (E × Nat × ℚ) :=
  retryAux fn matches_ backoff_factor max_attempts 0 delay_seconds []

/-! ## ErrorTracker under concurrent invocation

`record_success` executes `self.total_tasks += 1` with no lock: at the
level of the Python evaluation model this is a read of the attribute
followed by a write of `read + 1`, and a thread switch may occur between
the two.  The model below runs M such unsynchronized increments under an
explicit interleaving: each thread is a two-step program
(read the shared counter into a register; write register + 1 back), and
a schedule names which thread takes the next step. -/

structure IncThread where
  pc : Nat
  reg : Nat
deriving DecidableEq, Repr

structure ConcState where
  total : Nat
  threads : List IncThread
deriving DecidableEq, Repr

/-- Let thread `i` take one step of its `total_tasks += 1`. -/
def concStep (s : ConcState) (i : Nat) : ConcState :=
  match s.threads.get? i with
  | none => s
  | some th =>
    if th.pc = 0 then
      { s with threads := s.threads.set i ⟨1, s.total⟩ }
    else if th.pc = 1 then
      { total := th.reg + 1, threads := s.threads.set i ⟨2, th.reg⟩ }
    else s

/-- Run M concurrent `record_success` bodies under a schedule. -/
def runConc (sched : List Nat) (m : Nat) : ConcState :=
  sched.foldl concStep ⟨0, List.replicate m ⟨0, 0⟩⟩

/-- All threads have completed their increment. -/
def ConcState.done (s : ConcState) : Bool :=
  s.threads.all (fun th => th.pc = 2)

/-! ## task_manager.distribute_tasks

The engine is embedded with the execution substrate made explicit:

* a future is a pair `(id, payload)`; ids are assigned in submission
  order, and the behaviour oracle `beh : Nat → P → Except String V`
  gives the outcome each future resolves to (so an item may fail on one
  submission and succeed on a resubmission);
* a schedule step says what the blocking `ray.wait(num_returns=1)`
  reported — `complete i expired` (the pending future at position
  `i % len(pending)` resolved) or `wtimeout expired` (the wait returned
  with nothing done) — and whether the subsequent
  `time.time() - start_time > timeout` check found the call-level
  deadline elapsed;
* the drain loop is literal otherwise: completion-order appends to
  `results`, `completed` counts successes only, failures with remaining
  budget resubmit `retryPayload completed` (the engine's
  `items[completed]`) and decrement the one shared budget, failures with
  no budget append an error record, and an elapsed deadline appends one
  `None` per still-pending future and returns. -/

/-- One slot of the engine's `results` list: a successful payload, the
`{"error": str(e)}` record, or the `None` timeout sentinel. -/
inductive Entry (V : Type)
  | ok : V → Entry V
  | err : String → Entry V
  | noneE : Entry V
deriving DecidableEq, Repr

/-- One drain-loop iteration as reported by the substrate clock/wait. -/
inductive SStep
  | complete : Nat → Bool → SStep
  | wtimeout : Bool → SStep
deriving DecidableEq, Repr

/-- How a run of the drain loop ended.  `outOfSched` marks a schedule
too short to resolve all futures (the real loop would still be
blocked); `crashed` marks an `IndexError` on `items[completed]`. -/
inductive REnd
  | finished | timedOut | outOfSched | crashed
deriving DecidableEq, Repr

structure DState (P V : Type) where
  pending : List (Nat × P)
  results : List (Entry V)
  completed : Nat
  budget : Nat
  nextId : Nat
deriving DecidableEq, Repr

/-- `results.extend([None] * len(pending_futures))` on deadline expiry
(`task_manager.py` lines 221–225). -/
def fillTimeout (st : DState P V) : DState P V :=
  { st with results := st.results ++ List.replicate st.pending.length .noneE }

/-- One iteration of the drain loop of `distribute_tasks`
(`task_manager.py` lines 183–225), for a nonempty pending list:
process what `ray.wait` reported, then perform the
`time.time() - start_time > timeout` check.  Returns `Sum.inl` with the
final answer when the loop stops (deadline elapsed, or the retry path's
`items[completed]` raised `IndexError`), `Sum.inr` with the next state
when it continues. -/
def drainStep [Inhabited P] (beh : Nat → P → Except String V)
    (retryPayload : Nat → Option P) (hasTimeout : Bool) (s : SStep)
    (st : DState P V) : Sum (DState P V × REnd) (DState P V) :=
  match s with
  | .wtimeout ex =>
    if hasTimeout && ex then .inl (fillTimeout st, .timedOut) else .inr st
  | .complete i ex =>
    let j := i % st.pending.length
    let fut := st.pending.getD j (0, default)
    let pend := st.pending.eraseIdx j
    match beh fut.1 fut.2 with
    | .ok v =>
      let st2 : DState P V :=
        { st with pending := pend, results := st.results ++ [.ok v]
                  completed := st.completed + 1 }
      if hasTimeout && ex then .inl (fillTimeout st2, .timedOut) else .inr st2
    | .error m =>
      if 0 < st.budget then
        match retryPayload st.completed with
        | none => .inl (st, .crashed)
        | some p =>
          let st2 : DState P V :=
            { st with pending := pend ++ [(st.nextId, p)]
                      budget := st.budget - 1, nextId := st.nextId + 1 }
          if hasTimeout && ex then .inl (fillTimeout st2, .timedOut) else .inr st2
      else
        let st2 : DState P V :=
          { st with pending := pend, results := st.results ++ [.err m] }
        if hasTimeout && ex then .inl (fillTimeout st2, .timedOut) else .inr st2

/-- The drain loop of `distribute_tasks`
(`task_manager.py` lines 176–225), one schedule step per iteration of
`while pending_futures`. -/
def drain [Inhabited P] (beh : Nat → P → Except String V)
    (retryPayload : Nat → Option P) (hasTimeout : Bool) :
    List SStep → DState P V → DState P V × REnd
  | [], st => if st.pending.isEmpty then (st, .finished) else (st, .outOfSched)
  | s :: rest, st =>
    if st.pending.isEmpty then (st, .finished)
    else
      match drainStep beh retryPayload hasTimeout s st with
      | .inl out => out
      | .inr st2 => drain beh retryPayload hasTimeout rest st2

/-- Initial engine state of the non-batched path: one future per item,
ids in submission order (`task_manager.py` lines 153–178). -/
def initSingle (items : List α) (retry_attempts : Nat) : DState α β :=
  { pending := items.enum, results := [], completed := 0
    budget := retry_attempts, nextId := items.length }

/-- The non-batched `distribute_tasks` call after submission: drain the
futures under a schedule.  The retry path resubmits `items[completed]`,
exactly as the source does. -/
def distribute_single [Inhabited α] (beh : Nat → α → Except String β)
    (items : List α) (hasTimeout : Bool) (retry_attempts : Nat)
    (sched : List SStep) : DState α β × REnd :=
  drain beh (fun c => items.get? c) hasTimeout sched
    (initSingle items retry_attempts)

/-! ### file_sizes validation and resource selection -/

/-- The `file_sizes` validation at `task_manager.py` lines 109–115:
a supplied list whose length disagrees with `items` is replaced by
`None` (the `and` uses Python truthiness, so an empty list skips the
check). -/
def effective_file_sizes (n : Nat) (fs : Option (List Nat)) : Option (List Nat) :=
  match fs with
  | none => none
  | some l => if l ≠ [] ∧ l.length ≠ n then none else some l

/-- The `file_size` argument passed to the allocator for item `i` on the
non-batched path: present only when `file_sizes` is truthy. -/
def sizeArgSingle (eff : Option (List Nat)) (i : Nat) : Option Nat :=
  match eff with
  | none => none
  | some l => if l = [] then none else l.get? i

/-- Resource requests computed for the non-batched submissions
(`task_manager.py` lines 156–168). -/
def singleSubmissions (sys : SysInfo) (task_type : String) (memory_intensive : Bool)
    (n : Nat) (eff : Option (List Nat)) : List Resources :=
  (List.range n).map (fun i =>
    get_optimal_resource_allocation sys task_type (sizeArgSingle eff i) memory_intensive)

/-! ### Batched path -/

/-- `[items[i:i+B] for i in range(0, len(items), B)]`, with fuel to make
the recursion structural; `chunkList` supplies fuel `l.length`, which
suffices whenever `1 ≤ B`. -/
def chunkAux (B : Nat) : Nat → List α → List (List α)
  | 0, _ => []
  | _, [] => []
  | fuel + 1, a :: l => (a :: l).take B :: chunkAux B fuel ((a :: l).drop B)

def chunkList (B : Nat) (l : List α) : List (List α) :=
  chunkAux B l.length l

/-- Python's `max` over a (nonempty) list of sizes. -/
def listMax (l : List Nat) : Nat := l.foldl max 0

/-- `batched_file_sizes` (`task_manager.py` lines 122–125): built only
when `file_sizes` is truthy. -/
def batchedSizes (B : Nat) (eff : Option (List Nat)) : Option (List (List Nat)) :=
  match eff with
  | none => none
  | some l => if l = [] then none else some (chunkList B l)

/-- Resource requests computed per batch (`task_manager.py` lines
131–145): with size hints, the maximum size within the batch. -/
def batchSubmissions (sys : SysInfo) (task_type : String) (memory_intensive : Bool)
    (nBatches : Nat) (bs : Option (List (List Nat))) : List Resources :=
  (List.range nBatches).map (fun i =>
    match bs with
    | some bl =>
      get_optimal_resource_allocation sys task_type (some (listMax (bl.getD i []))) memory_intensive
    | none => get_optimal_resource_allocation sys task_type none memory_intensive)

/-- Payload of a future on the batched path.  The engine submits
batches; its retry path nevertheless resubmits the bare
`items[completed]`, which `stray` records faithfully. -/
inductive BPayload (α : Type)
  | batch : List α → BPayload α
  | stray : α → BPayload α
deriving DecidableEq, Repr

instance : Inhabited (BPayload α) := ⟨.batch []⟩

/-- A batch task's returned value: a Python list of per-item results,
or any non-list value. -/
inductive BOut (γ : Type)
  | vals : List γ → BOut γ
  | scalar : γ → BOut γ
deriving DecidableEq, Repr

/-- The flattening pass (`task_manager.py` lines 230–239):
`extend` a list-valued batch result, `append` anything else (a scalar
success, an error record, a timeout `None`) as a single entry. -/
def flattenB : List (Entry (BOut γ)) → List (Entry γ)
  | [] => []
  | .ok (.vals l) :: rest => l.map .ok ++ flattenB rest
  | .ok (.scalar g) :: rest => .ok g :: flattenB rest
  | .err m :: rest => .err m :: flattenB rest
  | .noneE :: rest => .noneE :: flattenB rest

/-- Initial engine state of the batched path: one future per batch. -/
def initBatched (items : List α) (B : Nat) (retry_attempts : Nat) :
    DState (BPayload α) (BOut γ) :=
  let batches := chunkList B items
  { pending := batches.enum.map (fun p => (p.1, BPayload.batch p.2))
    results := [], completed := 0, budget := retry_attempts
    nextId := batches.length }

/-- The batched `distribute_tasks` call after submission: drain, then
flatten.  Returns the flattened results, the final engine state, and
how the run ended. -/
def distribute_batched [Inhabited α] (beh : Nat → BPayload α → Except String (BOut γ))
    (items : List α) (B : Nat) (hasTimeout : Bool) (retry_attempts : Nat)
    (sched : List SStep) : List (Entry γ) × DState (BPayload α) (BOut γ) × REnd :=
  let out := drain beh (fun c => (items.get? c).map .stray) hasTimeout sched
    (initBatched items B retry_attempts)
  (flattenB out.1.results, out.1, out.2)

/-- The whole non-batched `distribute_tasks` pipeline: validate
`file_sizes`, compute the per-item resource requests, drain.  Used to
state that discarding mismatched size hints leaves everything else
unchanged. -/
def distribute_tasks_single [Inhabited α] (sys : SysInfo) (task_type : String)
    (memory_intensive : Bool) (beh : Nat → α → Except String β) (items : List α)
    (file_sizes : Option (List Nat)) (hasTimeout : Bool) (retry_attempts : Nat)
    (sched : List SStep) : List Resources × DState α β × REnd :=
  let eff := effective_file_sizes items.length file_sizes
  let out := distribute_single beh items hasTimeout retry_attempts sched
  (singleSubmissions sys task_type memory_intensive items.length eff, out.1, out.2)

/-- The whole batched `distribute_tasks` pipeline. -/
def distribute_tasks_batched [Inhabited α] (sys : SysInfo) (task_type : String)
    (memory_intensive : Bool) (beh : Nat → BPayload α → Except String (BOut γ))
    (items : List α) (B : Nat) (file_sizes : Option (List Nat)) (hasTimeout : Bool)
    (retry_attempts : Nat) (sched : List SStep) :
    List Resources × List (Entry γ) × DState (BPayload α) (BOut γ) × REnd :=
  let eff := effective_file_sizes items.length file_sizes
  let batches : List (List α) := chunkList B items
  let out := distribute_batched beh items B hasTimeout retry_attempts sched
  (batchSubmissions sys task_type memory_intensive batches.length (batchedSizes B eff), out)

/-! ### Derived notions used by the statements -/

/-- The result entry a future deterministically resolves to when the
drain loop consumes it terminally (success value, or error record). -/
def entryOf (beh : Nat → P → Except String V) (f : Nat × P) : Entry V :=
  match beh f.1 f.2 with
  | .ok v => .ok v
  | .error m => .err m

def Entry.isNone : Entry V → Bool
  | .noneE => true
  | _ => false

/-- Number of timeout sentinels among the result slots. -/
def countNone (l : List (Entry V)) : Nat := (l.filter Entry.isNone).length

/-- Number of real outcomes (success or error payload) among the
result slots. -/
def countReal (l : List (Entry V)) : Nat :=
  (l.filter (fun e => ! Entry.isNone e)).length

/-- Largest count appearing in a message histogram. -/
def maxSnd (l : List (String × Nat)) : Nat := l.foldr (fun y n => max y.2 n) 0

/-- The batch carried by a batched-path future, if it is one. -/
def payloadBatch : Nat × BPayload α → Option (List α)
  | (_, .batch b) => some b
  | (_, .stray _) => none

/-- Relation between a drain-loop state and its successor after one
continuing iteration: either nothing resolved (`ray.wait` timed out
without the deadline elapsing), or the future at position `j` resolved
and was processed as a success, a resubmitted failure, or a terminal
failure. -/
def StepRel [Inhabited P] (beh : Nat → P → Except String V) (rp : Nat → Option P)
    (st st2 : DState P V) : Prop :=
  st2 = st ∨
  ∃ j, j < st.pending.length ∧
    ((∃ v, beh (st.pending.getD j (0, default)).1 (st.pending.getD j (0, default)).2 =
          Except.ok v ∧
        st2 = { st with pending := st.pending.eraseIdx j
                        results := st.results ++ [Entry.ok v]
                        completed := st.completed + 1 }) ∨
     (∃ m p, beh (st.pending.getD j (0, default)).1 (st.pending.getD j (0, default)).2 =
          Except.error m ∧
        0 < st.budget ∧ rp st.completed = some p ∧
        st2 = { st with pending := st.pending.eraseIdx j ++ [(st.nextId, p)]
                        budget := st.budget - 1, nextId := st.nextId + 1 }) ∨
     (∃ m, beh (st.pending.getD j (0, default)).1 (st.pending.getD j (0, default)).2 =
          Except.error m ∧
        ¬ 0 < st.budget ∧
        st2 = { st with pending := st.pending.eraseIdx j
                        results := st.results ++ [Entry.err m] }))

/-- Total of the per-type `count` fields of `error_counts`. -/
def sumCounts (l : List TypeEntry) : Nat := (l.map (fun e => e.2.1)).sum

/-- Total of the occurrence counts of a message histogram. -/
def sumMsgs (h : List (String × Nat)) : Nat := (h.map Prod.snd).sum

/-- Invocations `c, c+1, …, c+k-1` of the wrapped function all raise an
error that the `exceptions` tuple catches. -/
def failUpTo (fn : Nat → Except E A) (matches_ : E → Bool) (c k : Nat) : Prop :=
  ∀ j, j < k → ∃ e, fn (c + j) = Except.error e ∧ matches_ e = true

/-- The retry trace the claim predicts for invocations `c … c+k-1`:
for the error raised by invocation `c+j`, the hook receives attempt
number `c+j+1` and the loop then sleeps `d * b^j` (the initial delay
multiplied by the backoff factor once per earlier retry). -/
def expectedEvs (fn : Nat → Except E A) (c k : Nat) (d b : ℚ) : List (E × Nat × ℚ) :=
  (List.range k).filterMap (fun j =>
    match fn (c + j) with
    | .error e => some (e, c + j + 1, d * b ^ j)
    | .ok _ => none)

/-! ## Theorems -/

/-- The CPU request of the allocator is always present and at least 1,
on every branch. -/
lemma alloc_num_cpus_ge_one (sys : SysInfo) (tt : String) (fs : Option Nat) (mi : Bool) :
    ∃ n, (get_optimal_resource_allocation sys tt fs mi).num_cpus = some n ∧ 1 ≤ n := by
  unfold get_optimal_resource_allocation
  split_ifs with h1 h2 h3
  · exact ⟨max 1 (sys.cpu_count - 1), rfl, le_max_left _ _⟩
  · exact ⟨max 1 (sys.cpu_count / 2), rfl, le_max_left _ _⟩
  · exact ⟨1, rfl, le_refl 1⟩
  · match fs with
    | none => exact ⟨1, rfl, le_refl 1⟩
    | some n =>
      simp only
      split_ifs with h4 h5
      · exact ⟨max 2 (sys.cpu_count / 2), rfl, le_trans (by norm_num) (le_max_left _ _)⟩
      · exact ⟨2, rfl, by norm_num⟩
      · exact ⟨1, rfl, le_refl 1⟩

/-- C2: `get_optimal_resource_allocation` is a total function (the
embedding is a Lean `def`, defined on every input) and follows the
first-match priority of the source: `cpu_intensive` gives
`max 1 (cores − 1)` CPUs and no memory entry; `memory_intensive` (as
type or flag) gives 70% of available memory and `max 1 (cores // 2)`
CPUs; `gpu_required` gives one GPU and one CPU regardless of core
count; otherwise the file-size tiers apply (> 1 GB, > 100 MB, small),
and with no size the default is one CPU.  On every input the CPU
request is present and at least 1. -/
theorem claim_C2_allocation_policy (sys : SysInfo) (tt : String) (fs : Option Nat) (mi : Bool) :
    (tt = "cpu_intensive" →
      get_optimal_resource_allocation sys tt fs mi =
        { num_cpus := some (max 1 (sys.cpu_count - 1)) }) ∧
    (¬ tt = "cpu_intensive" → (tt = "memory_intensive" ∨ mi = true) →
      get_optimal_resource_allocation sys tt fs mi =
        { num_cpus := some (max 1 (sys.cpu_count / 2))
          memory := some (sys.available_memory * 7 / 10) }) ∧
    (tt = "gpu_required" → mi = false →
      get_optimal_resource_allocation sys tt fs mi =
        { num_cpus := some 1, num_gpus := some 1 }) ∧
    (¬ tt = "cpu_intensive" → ¬ tt = "memory_intensive" → ¬ tt = "gpu_required" →
      mi = false →
      (∀ n, fs = some n →
        (1000000000 < n →
          get_optimal_resource_allocation sys tt fs mi =
            { num_cpus := some (max 2 (sys.cpu_count / 2))
              memory := some (sys.available_memory * 6 / 10) }) ∧
        (¬ 1000000000 < n → 100000000 < n →
          get_optimal_resource_allocation sys tt fs mi =
            { num_cpus := some 2, memory := some (1024 * 1024 * 1024) }) ∧
        (¬ 1000000000 < n → ¬ 100000000 < n →
          get_optimal_resource_allocation sys tt fs mi = { num_cpus := some 1 })) ∧
      (fs = none →
        get_optimal_resource_allocation sys tt fs mi = { num_cpus := some 1 })) ∧
    (∃ n, (get_optimal_resource_allocation sys tt fs mi).num_cpus = some n ∧ 1 ≤ n) := by
  refine ⟨?_, ?_, ?_, ?_, alloc_num_cpus_ge_one sys tt fs mi⟩
  · intro h1
    subst h1; rfl
  · intro h1 h2
    unfold get_optimal_resource_allocation
    rw [if_neg h1, if_pos]
    rcases h2 with h2 | h2
    · exact Or.inl h2
    · exact Or.inr (by simp [h2])
  · intro h1 h2
    subst h1 h2; rfl
  · intro h1 h2 h3 h4
    subst h4
    constructor
    · rintro n rfl
      unfold get_optimal_resource_allocation
      rw [if_neg h1, if_neg (by simpa using h2), if_neg h3]
      refine ⟨?_, ?_, ?_⟩
      · intro hn
        simp only
        rw [if_pos hn]
      · intro hn hn2
        simp only
        rw [if_neg hn, if_pos hn2]
      · intro hn hn2
        simp only
        rw [if_neg hn, if_neg hn2]
    · rintro rfl
      unfold get_optimal_resource_allocation
      rw [if_neg h1, if_neg (by simpa using h2), if_neg h3]

/-- Witness for C2 at a concrete host: the spec's example scenarios on
an 8-core machine. -/
theorem claim_C2_allocation_policy_witness :
    get_optimal_resource_allocation ⟨8, 1000⟩ ("gpu_required") none false =
      { num_cpus := some 1, num_gpus := some 1 } ∧
    get_optimal_resource_allocation ⟨8, 1000⟩ ("cpu_intensive") none false =
      { num_cpus := some 7 } :=
  ⟨(claim_C2_allocation_policy ⟨8, 1000⟩ ("gpu_required") none false).2.2.1 rfl rfl,
   (claim_C2_allocation_policy ⟨8, 1000⟩ ("cpu_intensive") none false).1 rfl⟩

/-! ### The retry combinator -/

/-- The loop invokes the wrapped function at most once per permitted
iteration. -/
lemma retryAux_calls_le (fn : Nat → Except E A) (matches_ : E → Bool) (b : ℚ) :
    ∀ (r calls : Nat) (d : ℚ) (evs : List (E × Nat × ℚ)),
      (retryAux fn matches_ b r calls d evs).2.1 ≤ calls + r := by
  intro r
  induction r with
  | zero => intro calls d evs; simp [retryAux]
  | succ r ih =>
    intro calls d evs
    simp only [retryAux]
    cases hfn : fn calls with
    | ok a =>
      dsimp only
      omega
    | error e =>
      dsimp only
      by_cases hm : matches_ e = true
      · rw [if_pos hm]
        by_cases hr : r = 0
        · rw [if_pos hr]
          dsimp only
          omega
        · rw [if_neg hr]
          have := ih (calls + 1) (d * b) ((e, calls + 1, d) :: evs)
          omega
      · rw [if_neg hm]
        dsimp only
        omega

lemma expectedEvs_cons (fn : Nat → Except E A) (c k : Nat) (d b : ℚ) (e : E)
    (h : fn c = Except.error e) :
    expectedEvs fn c (k + 1) d b = (e, c + 1, d) :: expectedEvs fn (c + 1) k (d * b) b := by
  unfold expectedEvs
  rw [List.range_succ_eq_map, List.filterMap_cons]
  have h0 : c + 0 = c := rfl
  simp only [h0, h, pow_zero, mul_one]
  congr 1
  rw [List.filterMap_map]
  refine congrArg (fun f => List.filterMap f (List.range k)) (funext fun j => ?_)
  have hc : c + Nat.succ j = c + 1 + j := by omega
  simp only [Function.comp, hc]
  cases hfe : fn (c + 1 + j) with
  | ok a => rfl
  | error e2 =>
    simp only
    rw [pow_succ', ← mul_assoc]

/-- Advancing the retry loop over `k` consecutive caught failures:
each one consumes one permitted iteration, multiplies the delay by the
backoff factor, and records one retry event. -/
lemma retryAux_shift (fn : Nat → Except E A) (matches_ : E → Bool) (b : ℚ) :
    ∀ (k c : Nat) (d : ℚ) (evs : List (E × Nat × ℚ)) (r : Nat),
      failUpTo fn matches_ c k → k < r →
      retryAux fn matches_ b r c d evs =
        retryAux fn matches_ b (r - k) (c + k) (d * b ^ k)
          ((expectedEvs fn c k d b).reverse ++ evs) := by
  intro k
  induction k with
  | zero =>
    intro c d evs r _ _
    simp [expectedEvs, pow_zero, mul_one]
  | succ k ih =>
    intro c d evs r hfail hlt
    obtain ⟨e, he, hme⟩ := hfail 0 (Nat.succ_pos k)
    rw [Nat.add_zero] at he
    obtain ⟨r', rfl⟩ : ∃ r', r = r' + 1 := ⟨r - 1, by omega⟩
    have hr' : ¬ r' = 0 := by omega
    have hstep : retryAux fn matches_ b (r' + 1) c d evs =
        retryAux fn matches_ b r' (c + 1) (d * b) ((e, c + 1, d) :: evs) := by
      simp only [retryAux, he]
      simp only [hme, if_true]
      rw [if_neg hr']
    rw [hstep]
    have hfail' : failUpTo fn matches_ (c + 1) k := by
      intro j hj
      obtain ⟨e2, he2, hm2⟩ := hfail (j + 1) (by omega)
      refine ⟨e2, ?_, hm2⟩
      rw [show c + 1 + j = c + (j + 1) from by omega]
      exact he2
    rw [ih (c + 1) (d * b) ((e, c + 1, d) :: evs) r' hfail' (by omega)]
    rw [expectedEvs_cons fn c k d b e he]
    rw [List.reverse_cons, List.append_assoc, List.singleton_append]
    rw [show r' + 1 - (k + 1) = r' - k from by omega]
    rw [show c + (k + 1) = c + 1 + k from by omega]
    rw [pow_succ', ← mul_assoc]

/-- Pointwise description of the expected retry trace. -/
lemma expectedEvs_get? (fn : Nat → Except E A) (matches_ : E → Bool) (b : ℚ) :
    ∀ (j k c : Nat) (d : ℚ) (e : E), j < k → failUpTo fn matches_ c k →
      fn (c + j) = Except.error e →
      (expectedEvs fn c k d b).get? j = some (e, c + j + 1, d * b ^ j) := by
  intro j
  induction j with
  | zero =>
    intro k c d e hj hfail he
    obtain ⟨k', rfl⟩ : ∃ k', k = k' + 1 := ⟨k - 1, by omega⟩
    rw [Nat.add_zero] at he
    rw [expectedEvs_cons fn c k' d b e he]
    simp [pow_zero, mul_one]
  | succ j ih =>
    intro k c d e hj hfail he
    obtain ⟨k', rfl⟩ : ∃ k', k = k' + 1 := ⟨k - 1, by omega⟩
    obtain ⟨e0, he0, _⟩ := hfail 0 (Nat.succ_pos k')
    rw [Nat.add_zero] at he0
    rw [expectedEvs_cons fn c k' d b e0 he0]
    have hfail' : failUpTo fn matches_ (c + 1) k' := by
      intro i hi
      obtain ⟨e2, he2, hm2⟩ := hfail (i + 1) (by omega)
      refine ⟨e2, ?_, hm2⟩
      rw [show c + 1 + i = c + (i + 1) from by omega]
      exact he2
    have he' : fn (c + 1 + j) = Except.error e := by
      rw [show c + 1 + j = c + (j + 1) from by omega]
      exact he
    have := ih k' (c + 1) (d * b) e (by omega) hfail' he'
    simp only [List.get?_cons_succ]
    rw [this]
    rw [show c + 1 + j + 1 = c + (j + 1) + 1 from by omega]
    rw [pow_succ', ← mul_assoc]

/-- A run that first succeeds at invocation `k` (0-indexed), after `k`
caught failures, returns that value having called the function `k + 1`
times, with the expected retry trace. -/
lemma retryRun_success (fn : Nat → Except E A) (matches_ : E → Bool)
    (m k : Nat) (d b : ℚ) (v : A) (hk : k < m) (hok : fn k = Except.ok v)
    (hfail : failUpTo fn matches_ 0 k) :
    retryRun m d b matches_ fn = (.ret v, k + 1, expectedEvs fn 0 k d b) := by
  unfold retryRun
  rw [retryAux_shift fn matches_ b k 0 d [] m hfail hk]
  obtain ⟨s, hs⟩ : ∃ s, m - k = s + 1 := ⟨m - k - 1, by omega⟩
  rw [hs]
  simp only [retryAux, Nat.zero_add, hok]
  rw [List.append_nil, List.reverse_reverse]

/-- A run whose `m` permitted invocations all raise caught errors
re-raises the last error after exactly `m` calls. -/
lemma retryRun_exhaust (fn : Nat → Except E A) (matches_ : E → Bool)
    (m : Nat) (d b : ℚ) (e : E) (hm : 1 ≤ m)
    (he : fn (m - 1) = Except.error e) (hmm : matches_ e = true)
    (hfail : failUpTo fn matches_ 0 (m - 1)) :
    retryRun m d b matches_ fn = (.raised e, m, expectedEvs fn 0 (m - 1) d b) := by
  unfold retryRun
  rw [retryAux_shift fn matches_ b (m - 1) 0 d [] m hfail (by omega)]
  rw [show m - (m - 1) = 1 from by omega]
  simp only [retryAux, Nat.zero_add, he]
  simp only [hmm, if_true, if_pos rfl]
  rw [List.append_nil, List.reverse_reverse]
  rw [show m - 1 + 1 = m from by omega]

/-- C4: a function wrapped by `retry(max_attempts, delay_seconds,
backoff_factor, exceptions, on_retry)` with `max_attempts ≥ 1` is
invoked at most `max_attempts` times; it returns the wrapped function's
value on the first successful attempt (after `k` caught failures: value
returned, `k+1` calls made); each caught matching error before
exhaustion produces exactly one retry event, in which `on_retry` is
invoked with attempt number `j+1` and the loop then sleeps
`delay * backoff^j` before multiplying the delay by the backoff factor;
and when all `max_attempts` invocations raise caught errors, the last
error is re-raised rather than suppressed. -/
theorem claim_C4_retry_combinator (fn : Nat → Except E A) (matches_ : E → Bool)
    (m : Nat) (d b : ℚ) (hm : 1 ≤ m) :
    ((retryRun m d b matches_ fn).2.1 ≤ m) ∧
    (∀ k v, k < m → fn k = Except.ok v → failUpTo fn matches_ 0 k →
      retryRun m d b matches_ fn = (.ret v, k + 1, expectedEvs fn 0 k d b) ∧
      ∀ j e, j < k → fn j = Except.error e →
        (retryRun m d b matches_ fn).2.2.get? j = some (e, j + 1, d * b ^ j)) ∧
    (failUpTo fn matches_ 0 m →
      ∃ e, fn (m - 1) = Except.error e ∧
        retryRun m d b matches_ fn = (.raised e, m, expectedEvs fn 0 (m - 1) d b)) := by
  refine ⟨?_, ?_, ?_⟩
  · have h := retryAux_calls_le fn matches_ b m 0 d []
    unfold retryRun
    omega
  · intro k v hk hok hfail
    have hmain := retryRun_success fn matches_ m k d b v hk hok hfail
    refine ⟨hmain, ?_⟩
    intro j e hj he
    rw [hmain]
    have hget := expectedEvs_get? fn matches_ b j k 0 d e hj hfail
      (by rw [Nat.zero_add]; exact he)
    rw [Nat.zero_add] at hget
    exact hget
  · intro hfail
    obtain ⟨e, he, hme⟩ := hfail (m - 1) (by omega)
    rw [Nat.zero_add] at he
    refine ⟨e, he, ?_⟩
    exact retryRun_exhaust fn matches_ m d b e hm he hme
      (fun j hj => hfail j (by omega))

/-- Witness for C4: three permitted attempts against a function that
fails twice then succeeds — the wrapper returns the value after three
calls, and the second retry slept delay 2 (initial delay 1, backoff
factor 2). -/
theorem claim_C4_retry_combinator_witness :
    (retryRun 3 1 2 (fun _ => true)
        (fun k => if k < 2 then Except.error (0 : Nat) else Except.ok (42 : Nat))).1 =
      PyOutcome.ret 42 ∧
    (retryRun 3 1 2 (fun _ => true)
        (fun k => if k < 2 then Except.error (0 : Nat) else Except.ok (42 : Nat))).2.1 = 3 ∧
    (retryRun 3 1 2 (fun _ => true)
        (fun k => if k < 2 then Except.error (0 : Nat) else Except.ok (42 : Nat))).2.2.get? 1 =
      some (0, 2, 2) := by
  have h := (claim_C4_retry_combinator
      (fun k => if k < 2 then Except.error (0 : Nat) else Except.ok (42 : Nat))
      (fun _ => true) 3 1 2 (by norm_num)).2.1 2 42 (by norm_num) rfl
      (fun j hj => ⟨0, by
        have hj2 : j = 0 ∨ j = 1 := by omega
        rcases hj2 with rfl | rfl <;> rfl, rfl⟩)
  obtain ⟨hmain, hpt⟩ := h
  refine ⟨by rw [hmain], by rw [hmain], ?_⟩
  have hg := hpt 1 0 (by norm_num) rfl
  rw [hg]
  norm_num

/-! ### ErrorTracker invariants -/

lemma bumpMsg_sum (l : List (String × Nat)) (m : String) :
    sumMsgs (bumpMsg l m) = sumMsgs l + 1 := by
  induction l with
  | nil => rfl
  | cons x rest ih =>
    obtain ⟨k, v⟩ := x
    by_cases hk : k = m
    · simp [bumpMsg, hk, sumMsgs]
      omega
    · simp only [bumpMsg, if_neg hk]
      simp [sumMsgs] at ih ⊢
      omega

lemma bumpType_sum (l : List TypeEntry) (t m : String) :
    sumCounts (bumpType l t m) = sumCounts l + 1 := by
  induction l with
  | nil => rfl
  | cons x rest ih =>
    obtain ⟨k, c, msgs⟩ := x
    by_cases hk : k = t
    · simp [bumpType, hk, sumCounts]
      omega
    · simp only [bumpType, if_neg hk]
      simp [sumCounts] at ih ⊢
      omega

lemma bumpType_msgs (l : List TypeEntry) (t m : String)
    (h : ∀ e ∈ l, sumMsgs e.2.2 = e.2.1) :
    ∀ e ∈ bumpType l t m, sumMsgs e.2.2 = e.2.1 := by
  induction l with
  | nil =>
    intro e he
    simp [bumpType] at he
    subst he
    rfl
  | cons x rest ih =>
    obtain ⟨k, c, msgs⟩ := x
    by_cases hk : k = t
    · simp only [bumpType, if_pos hk]
      intro e he
      rcases List.mem_cons.mp he with rfl | hmem
      · have hx : sumMsgs msgs = c := h (k, c, msgs) (List.mem_cons_self _ _)
        simp only
        rw [bumpMsg_sum, hx]
      · exact h e (List.mem_cons_of_mem _ hmem)
    · simp only [bumpType, if_neg hk]
      intro e he
      rcases List.mem_cons.mp he with rfl | hmem
      · exact h _ (List.mem_cons_self _ _)
      · exact ih (fun e2 he2 => h e2 (List.mem_cons_of_mem _ he2)) e hmem

/-- The three C10 invariants, as a predicate on tracker states. -/
def TrackerInv (tr : ErrorTracker) : Prop :=
  tr.failed_tasks ≤ tr.total_tasks ∧
  sumCounts tr.error_counts = tr.failed_tasks ∧
  ∀ e ∈ tr.error_counts, sumMsgs e.2.2 = e.2.1

lemma applyOp_inv (tr : ErrorTracker) (op : TrackOp) (h : TrackerInv tr) :
    TrackerInv (applyOp tr op) := by
  obtain ⟨h1, h2, h3⟩ := h
  cases op with
  | succ =>
    exact ⟨by simp [applyOp, ErrorTracker.record_success]; omega, h2, h3⟩
  | err t m =>
    refine ⟨?_, ?_, ?_⟩
    · simp [applyOp, ErrorTracker.record_error]
      omega
    · simp only [applyOp, ErrorTracker.record_error]
      rw [bumpType_sum, h2]
    · exact bumpType_msgs tr.error_counts t m h3

lemma runOps_inv : ∀ (ops : List TrackOp) (tr : ErrorTracker),
    TrackerInv tr → TrackerInv (ops.foldl applyOp tr) := by
  intro ops
  induction ops with
  | nil => intro tr h; exact h
  | cons op rest ih =>
    intro tr h
    exact ih (applyOp tr op) (applyOp_inv tr op h)

/-- C10: after any sequence of `record_success` / `record_error` calls,
`failed_tasks ≤ total_tasks`, the per-type counts sum to
`failed_tasks`, and each type's message histogram sums to that type's
count; every operation preserves all three. -/
theorem claim_C10_tracker_invariants (ops : List TrackOp) :
    ((runOps ops).failed_tasks ≤ (runOps ops).total_tasks ∧
      sumCounts (runOps ops).error_counts = (runOps ops).failed_tasks ∧
      ∀ e ∈ (runOps ops).error_counts, sumMsgs e.2.2 = e.2.1) ∧
    ∀ op, TrackerInv (runOps ops) → TrackerInv (applyOp (runOps ops) op) := by
  refine ⟨runOps_inv ops ErrorTracker.init ⟨le_refl 0, rfl, by
    intro e he
    simp [ErrorTracker.init] at he⟩, ?_⟩
  intro op h
  exact applyOp_inv (runOps ops) op h

/-- Witness for C10 on a concrete history: two errors of one type and
one success. -/
theorem claim_C10_tracker_invariants_witness :
    sumCounts (runOps [.err ("A") ("x"), .succ, .err ("A") ("y")]).error_counts =
      (runOps [.err ("A") ("x"), .succ, .err ("A") ("y")]).failed_tasks ∧
    sumMsgs [("x", 1), ("y", 1)] = 2 :=
  ⟨(claim_C10_tracker_invariants [.err ("A") ("x"), .succ, .err ("A") ("y")]).1.2.1,
   (claim_C10_tracker_invariants [.err ("A") ("x"), .succ, .err ("A") ("y")]).1.2.2
     (("A"), 2, [("x", 1), ("y", 1)]) (by decide)⟩

/-! ### ErrorTracker report: insertion-order dictionaries -/

lemma firstOccs_mem (xs : List String) (x : String) : x ∈ firstOccs xs ↔ x ∈ xs := by
  induction xs with
  | nil => simp [firstOccs]
  | cons y ys ih =>
    simp only [firstOccs, List.mem_cons, List.mem_filter, ih, decide_eq_true_eq]
    by_cases hxy : x = y
    · simp [hxy]
    · simp [hxy]

lemma firstOccs_nodup (xs : List String) : (firstOccs xs).Nodup := by
  induction xs with
  | nil => simp [firstOccs]
  | cons y ys ih =>
    simp only [firstOccs]
    refine List.nodup_cons.mpr ⟨?_, List.Nodup.filter _ ih⟩
    intro hmem
    have h := List.mem_filter.mp hmem
    simp at h

lemma firstOccs_append_singleton (xs : List String) (x : String) :
    firstOccs (xs ++ [x]) = if x ∈ xs then firstOccs xs else firstOccs xs ++ [x] := by
  induction xs with
  | nil => simp [firstOccs]
  | cons y ys ih =>
    by_cases hx : x ∈ ys
    · have hx2 : x ∈ y :: ys := List.mem_cons_of_mem y hx
      simp only [List.cons_append, firstOccs, List.append_eq, ih, if_pos hx, if_pos hx2]
    · by_cases hxy : x = y
      · subst hxy
        have hx2 : x ∈ x :: ys := List.mem_cons_self x ys
        simp only [List.cons_append, firstOccs, List.append_eq, ih, if_neg hx, if_pos hx2]
        rw [List.filter_append]
        simp
      · have hx2 : ¬ x ∈ y :: ys := by simp [hxy, hx]
        simp only [List.cons_append, firstOccs, List.append_eq, ih, if_neg hx, if_neg hx2]
        rw [List.filter_append]
        simp [hxy]

lemma bumpMsg_not_mem (l : List (String × Nat)) (m : String)
    (h : ∀ p ∈ l, ¬ p.1 = m) : bumpMsg l m = l ++ [(m, 1)] := by
  induction l with
  | nil => rfl
  | cons x rest ih =>
    obtain ⟨k, v⟩ := x
    have hk : ¬ k = m := h (k, v) (List.mem_cons_self _ _)
    simp only [bumpMsg, if_neg hk, List.cons_append]
    rw [ih (fun p hp => h p (List.mem_cons_of_mem _ hp))]

lemma bumpMsg_map (ks : List String) (cnt : String → Nat) (m : String)
    (hnd : ks.Nodup) (hm : m ∈ ks) :
    bumpMsg (ks.map (fun k => (k, cnt k))) m =
      ks.map (fun k => (k, if k = m then cnt k + 1 else cnt k)) := by
  induction ks with
  | nil => cases hm
  | cons k rest ih =>
    by_cases hk : k = m
    · have hmnotin : ¬ m ∈ rest := hk ▸ (List.nodup_cons.mp hnd).1
      simp only [List.map_cons, bumpMsg, if_pos hk]
      congr 1
      refine List.map_congr_left ?_
      intro k2 hk2
      have hk2m : ¬ k2 = m := fun h => hmnotin (h ▸ hk2)
      simp only [if_neg hk2m]
    · have hmem : m ∈ rest := by
        rcases List.mem_cons.mp hm with h | h
        · exact absurd h.symm hk
        · exact h
      simp only [List.map_cons, bumpMsg, if_neg hk]
      rw [ih (List.nodup_cons.mp hnd).2 hmem]

lemma bumpType_not_mem (l : List TypeEntry) (t m : String)
    (h : ∀ e ∈ l, ¬ e.1 = t) : bumpType l t m = l ++ [(t, 1, [(m, 1)])] := by
  induction l with
  | nil => rfl
  | cons x rest ih =>
    obtain ⟨k, c, msgs⟩ := x
    have hk : ¬ k = t := h (k, c, msgs) (List.mem_cons_self _ _)
    simp only [bumpType, if_neg hk, List.cons_append]
    rw [ih (fun e he => h e (List.mem_cons_of_mem _ he))]

lemma bumpType_map (ks : List String) (cnt : String → Nat)
    (hist : String → List (String × Nat)) (t m : String)
    (hnd : ks.Nodup) (hm : t ∈ ks) :
    bumpType (ks.map (fun k => (k, cnt k, hist k))) t m =
      ks.map (fun k =>
        if k = t then (k, cnt k + 1, bumpMsg (hist k) m) else (k, cnt k, hist k)) := by
  induction ks with
  | nil => cases hm
  | cons k rest ih =>
    by_cases hk : k = t
    · have htnotin : ¬ t ∈ rest := hk ▸ (List.nodup_cons.mp hnd).1
      simp only [List.map_cons, bumpType, if_pos hk]
      congr 1
      refine List.map_congr_left ?_
      intro k2 hk2
      have hk2t : ¬ k2 = t := fun h => htnotin (h ▸ hk2)
      simp only [if_neg hk2t]
    · have hmem : t ∈ rest := by
        rcases List.mem_cons.mp hm with h | h
        · exact absurd h.symm hk
        · exact h
      simp only [List.map_cons, bumpType, if_neg hk]
      rw [ih (List.nodup_cons.mp hnd).2 hmem]

lemma errList_append (l l2 : List TrackOp) :
    errList (l ++ l2) = errList l ++ errList l2 := by
  simp [errList, List.filterMap_append]

lemma errList_err (t m : String) : errList [.err t m] = [(t, m)] := rfl

lemma errList_succ : errList [.succ] = [] := rfl

lemma msgsOf_append_err (l : List TrackOp) (t m t' : String) :
    msgsOf (l ++ [.err t m]) t' = msgsOf l t' ++ (if t = t' then [m] else []) := by
  simp only [msgsOf, errList_append, List.filterMap_append, errList_err]
  by_cases h : t = t'
  · simp [h]
  · simp [h]

lemma msgsOf_append_succ (l : List TrackOp) (t' : String) :
    msgsOf (l ++ [.succ]) t' = msgsOf l t' := by
  simp [msgsOf, errList_append, errList_succ]

lemma typesOf_append_err (l : List TrackOp) (t m : String) :
    typesOf (l ++ [.err t m]) =
      if t ∈ (errList l).map Prod.fst then typesOf l else typesOf l ++ [t] := by
  simp only [typesOf, errList_append, errList_err, List.map_append, List.map_cons,
    List.map_nil]
  exact firstOccs_append_singleton _ t

lemma typesOf_append_succ (l : List TrackOp) :
    typesOf (l ++ [.succ]) = typesOf l := by
  simp [typesOf, errList_append, errList_succ]

lemma filterMap_snd_nil (ps : List (String × String)) (t : String)
    (h : ¬ t ∈ ps.map Prod.fst) :
    ps.filterMap (fun p => if p.1 = t then some p.2 else none) = [] := by
  induction ps with
  | nil => rfl
  | cons p rest ih =>
    have hp : ¬ p.1 = t := by
      intro hq
      exact h (by simp [List.map_cons, hq])
    have hrest : ¬ t ∈ rest.map Prod.fst := by
      intro hq
      exact h (by simp [List.map_cons, hq])
    rw [List.filterMap_cons_none]
    · exact ih hrest
    · rw [if_neg hp]

lemma msgsOf_nil_of_not_mem (l : List TrackOp) (t : String)
    (h : ¬ t ∈ (errList l).map Prod.fst) : msgsOf l t = [] :=
  filterMap_snd_nil (errList l) t h

/-- Appending one message to a history updates its spec-level histogram
exactly as `record_error` updates the tracker's histogram. -/
lemma histSpec_append (ms : List String) (m : String) :
    histSpec (ms ++ [m]) = bumpMsg (histSpec ms) m := by
  unfold histSpec
  rw [firstOccs_append_singleton]
  by_cases hm : m ∈ ms
  · rw [if_pos hm]
    rw [bumpMsg_map (firstOccs ms) (fun x => ms.count x) m (firstOccs_nodup ms)
      ((firstOccs_mem ms m).mpr hm)]
    refine List.map_congr_left ?_
    intro x hx
    by_cases hxm : x = m
    · subst hxm
      simp [List.count_append]
    · simp [List.count_append, List.count_singleton', hxm]
  · rw [if_neg hm, List.map_append]
    rw [bumpMsg_not_mem]
    · congr 1
      · refine List.map_congr_left ?_
        intro x hx
        have hxm : ¬ x = m := fun h => hm (h ▸ (firstOccs_mem ms x).mp hx)
        simp [List.count_append, List.count_singleton', hxm]
      · simp [List.count_append, List.count_eq_zero.mpr hm]
    · intro p hp
      obtain ⟨x, hx, rfl⟩ := List.mem_map.mp hp
      exact fun h => hm (h ▸ (firstOccs_mem ms x).mp hx)

lemma runOps_append_op (l : List TrackOp) (op : TrackOp) :
    runOps (l ++ [op]) = applyOp (runOps l) op := by
  simp [runOps, List.foldl_append]

/-- The tracker's `error_counts` after any history equals the
history-derived association list: types in first-occurrence order, each
with its error count and its message histogram in first-occurrence
order. -/
lemma error_counts_runOps (ops : List TrackOp) :
    (runOps ops).error_counts = ecSpec ops := by
  induction ops using List.reverseRecOn with
  | nil => rfl
  | append_singleton l op ih =>
    rw [runOps_append_op]
    cases op with
    | succ =>
      have h1 : (applyOp (runOps l) .succ).error_counts = (runOps l).error_counts := rfl
      rw [h1, ih]
      unfold ecSpec
      rw [typesOf_append_succ]
      refine List.map_congr_left ?_
      intro k hk
      rw [msgsOf_append_succ]
    | err t m =>
      have h1 : (applyOp (runOps l) (.err t m)).error_counts =
          bumpType (runOps l).error_counts t m := rfl
      rw [h1, ih]
      by_cases ht : t ∈ (errList l).map Prod.fst
      · unfold ecSpec
        rw [typesOf_append_err, if_pos ht]
        rw [bumpType_map (typesOf l) (fun k => (msgsOf l k).length)
          (fun k => histSpec (msgsOf l k)) t m (firstOccs_nodup _)
          ((firstOccs_mem _ t).mpr ht)]
        refine List.map_congr_left ?_
        intro k hk
        by_cases hkt : k = t
        · subst hkt
          rw [if_pos rfl, msgsOf_append_err, if_pos rfl, histSpec_append]
          simp
        · rw [if_neg hkt, msgsOf_append_err, if_neg (fun h => hkt h.symm)]
          simp
      · unfold ecSpec
        rw [typesOf_append_err, if_neg ht]
        rw [bumpType_not_mem]
        · rw [List.map_append]
          congr 1
          · refine List.map_congr_left ?_
            intro k hk
            have hkt : ¬ t = k := fun h => ht (h ▸ (firstOccs_mem _ k).mp hk)
            rw [msgsOf_append_err, if_neg hkt]
            simp
          · have h0 : msgsOf l t = [] := msgsOf_nil_of_not_mem l t ht
            simp only [List.map_cons, List.map_nil]
            rw [msgsOf_append_err, if_pos rfl, h0]
            simp [histSpec, firstOccs]
        · intro e he
          obtain ⟨k, hk, rfl⟩ := List.mem_map.mp he
          exact fun h => ht (h ▸ (firstOccs_mem _ k).mp hk)

lemma totals_aux : ∀ (ops : List TrackOp) (tr : ErrorTracker),
    (List.foldl applyOp tr ops).total_tasks = tr.total_tasks + ops.length ∧
    (List.foldl applyOp tr ops).failed_tasks = tr.failed_tasks + numErrs ops := by
  intro ops
  induction ops with
  | nil => intro tr; simp [numErrs, errList]
  | cons op rest ih =>
    intro tr
    obtain ⟨ih1, ih2⟩ := ih (applyOp tr op)
    cases op with
    | succ =>
      refine ⟨?_, ?_⟩
      · rw [List.foldl_cons, ih1]
        simp [applyOp, ErrorTracker.record_success]
        omega
      · rw [List.foldl_cons, ih2]
        simp [applyOp, ErrorTracker.record_success, numErrs, errList, List.filterMap_cons]
    | err t m =>
      refine ⟨?_, ?_⟩
      · rw [List.foldl_cons, ih1]
        simp [applyOp, ErrorTracker.record_error]
        omega
      · rw [List.foldl_cons, ih2]
        simp [applyOp, ErrorTracker.record_error, numErrs, errList, List.filterMap_cons]
        omega

lemma runOps_total (ops : List TrackOp) : (runOps ops).total_tasks = ops.length := by
  have h := (totals_aux ops ErrorTracker.init).1
  simpa [runOps, ErrorTracker.init] using h

lemma runOps_failed (ops : List TrackOp) : (runOps ops).failed_tasks = numErrs ops := by
  have h := (totals_aux ops ErrorTracker.init).2
  simpa [runOps, ErrorTracker.init] using h

/-! ### Python max over histogram items keeps the first maximum -/

lemma maxSnd_cons (x : String × Nat) (l : List (String × Nat)) :
    maxSnd (x :: l) = max x.2 (maxSnd l) := rfl

lemma maxSnd_ge (l : List (String × Nat)) : ∀ y ∈ l, y.2 ≤ maxSnd l := by
  induction l with
  | nil => intro y hy; cases hy
  | cons x rest ih =>
    intro y hy
    rcases List.mem_cons.mp hy with rfl | hmem
    · rw [maxSnd_cons]; omega
    · have h := ih y hmem
      rw [maxSnd_cons]; omega

lemma pyMaxSnd_cons (x y : String × Nat) (ys : List (String × Nat)) :
    pyMaxSnd x (y :: ys) = pyMaxSnd (if x.2 < y.2 then y else x) ys := rfl

/-- Python's `max(..., key=...)` fold returns the first element whose
key is maximal: it is the element `find?` locates with the
"key is the maximum" predicate. -/
lemma pyMaxSnd_find? : ∀ (xs : List (String × Nat)) (x : String × Nat),
    (x :: xs).find? (fun y => decide (maxSnd (x :: xs) ≤ y.2)) = some (pyMaxSnd x xs) := by
  intro xs
  induction xs with
  | nil =>
    intro x
    rw [List.find?_cons_of_pos]
    · rfl
    · simp [maxSnd_cons, maxSnd]
  | cons y ys ih =>
    intro x
    by_cases hxy : x.2 < y.2
    · have hM : maxSnd (x :: y :: ys) = maxSnd (y :: ys) := by
        simp only [maxSnd_cons]
        omega
      have hpredx : ¬ (maxSnd (x :: y :: ys) ≤ x.2) := by
        rw [hM, maxSnd_cons]
        omega
      rw [List.find?_cons_of_neg _ (by simpa using hpredx)]
      rw [pyMaxSnd_cons, if_pos hxy]
      simp only [hM]
      exact ih y
    · have hyx : y.2 ≤ x.2 := Nat.le_of_not_lt hxy
      have hM : maxSnd (x :: y :: ys) = maxSnd (x :: ys) := by
        simp only [maxSnd_cons]
        omega
      rw [pyMaxSnd_cons, if_neg hxy]
      have hIH := ih x
      by_cases hpx : maxSnd (x :: y :: ys) ≤ x.2
      · rw [List.find?_cons_of_pos _ (by simpa using hpx)]
        have hpx2 : maxSnd (x :: ys) ≤ x.2 := hM ▸ hpx
        rw [List.find?_cons_of_pos _ (by simpa using hpx2)] at hIH
        exact hIH
      · rw [List.find?_cons_of_neg _ (by simpa using hpx)]
        have hpy : ¬ (maxSnd (x :: y :: ys) ≤ y.2) :=
          fun h => hpx (le_trans h hyx)
        rw [List.find?_cons_of_neg _ (by simpa using hpy)]
        have hpx2 : ¬ (maxSnd (x :: ys) ≤ x.2) := fun h => hpx (by rw [hM]; exact h)
        rw [List.find?_cons_of_neg _ (by simpa using hpx2)] at hIH
        simpa only [hM] using hIH

lemma find?_congr_mem (l : List α) (p q : α → Bool)
    (h : ∀ x ∈ l, p x = q x) : l.find? p = l.find? q := by
  induction l with
  | nil => rfl
  | cons x rest ih =>
    have hx := h x (List.mem_cons_self _ _)
    by_cases hp : p x = true
    · rw [List.find?_cons_of_pos _ hp, @List.find?_cons_of_pos _ q x rest (hx ▸ hp)]
    · rw [List.find?_cons_of_neg _ hp, @List.find?_cons_of_neg _ q x rest (hx ▸ hp)]
      exact ih (fun x2 hx2 => h x2 (List.mem_cons_of_mem _ hx2))

lemma find?_map_fn (f : β → α) (p : α → Bool) (l : List β) :
    (l.map f).find? p = (l.find? (fun b => p (f b))).map f := by
  induction l with
  | nil => rfl
  | cons x rest ih =>
    by_cases hp : p (f x) = true
    · rw [List.map_cons, List.find?_cons_of_pos _ hp,
        @List.find?_cons_of_pos _ (fun b => p (f b)) x rest hp]
      rfl
    · rw [List.map_cons, List.find?_cons_of_neg _ hp,
        @List.find?_cons_of_neg _ (fun b => p (f b)) x rest hp]
      exact ih

lemma filterMap_snd_ne_nil (ps : List (String × String)) (t : String)
    (h : t ∈ ps.map Prod.fst) :
    ps.filterMap (fun p => if p.1 = t then some p.2 else none) ≠ [] := by
  induction ps with
  | nil => simp at h
  | cons p rest ih =>
    by_cases hp : p.1 = t
    · rw [List.filterMap_cons_some (by rw [if_pos hp])]
      simp
    · rw [List.filterMap_cons_none (by rw [if_neg hp])]
      apply ih
      rcases List.mem_map.mp h with ⟨q, hq, hqt⟩
      rcases List.mem_cons.mp hq with rfl | hq2
      · exact absurd hqt hp
      · exact List.mem_map.mpr ⟨q, hq2, hqt⟩

lemma msgsOf_ne_nil (ops : List TrackOp) (t : String) (h : t ∈ typesOf ops) :
    msgsOf ops t ≠ [] :=
  filterMap_snd_ne_nil (errList ops) t ((firstOccs_mem _ t).mp h)

/-- `most_common_message` on the histogram of a nonempty message
sequence returns a message of that sequence whose occurrence count is
maximal, and specifically the first such message in insertion
(first-occurrence) order. -/
lemma most_common_spec (ms : List String) (hne : ms ≠ []) :
    ∃ mm, most_common_message (histSpec ms) = some mm ∧ mm ∈ ms ∧
      (∀ m2 ∈ ms, ms.count m2 ≤ ms.count mm) ∧
      (firstOccs ms).find? (fun m2 => decide (ms.count m2 = ms.count mm)) = some mm := by
  obtain ⟨a, l, hfo⟩ : ∃ a l, firstOccs ms = a :: l := by
    cases ms with
    | nil => exact absurd rfl hne
    | cons m0 rest => exact ⟨m0, _, rfl⟩
  have hhist : histSpec ms =
      (a, ms.count a) :: l.map (fun x => (x, ms.count x)) := by
    unfold histSpec
    rw [hfo, List.map_cons]
  have hfind := pyMaxSnd_find? (l.map (fun x => (x, ms.count x))) (a, ms.count a)
  have hmcm : most_common_message (histSpec ms) =
      some (pyMaxSnd (a, ms.count a) (l.map (fun x => (x, ms.count x)))).1 := by
    rw [hhist]
    rfl
  have hzmem : pyMaxSnd (a, ms.count a) (l.map (fun x => (x, ms.count x))) ∈
      (a, ms.count a) :: l.map (fun x => (x, ms.count x)) :=
    List.mem_of_find?_eq_some hfind
  have hzmem2 : pyMaxSnd (a, ms.count a) (l.map (fun x => (x, ms.count x))) ∈
      (firstOccs ms).map (fun x => (x, ms.count x)) := by
    rw [hfo, List.map_cons]
    exact hzmem
  obtain ⟨x0, hx0mem, hx0⟩ := List.mem_map.mp hzmem2
  have hz2 : (pyMaxSnd (a, ms.count a) (l.map (fun x => (x, ms.count x)))).2 =
      ms.count (pyMaxSnd (a, ms.count a) (l.map (fun x => (x, ms.count x)))).1 := by
    rw [← hx0]
  have hpz : maxSnd ((a, ms.count a) :: l.map (fun x => (x, ms.count x))) ≤
      (pyMaxSnd (a, ms.count a) (l.map (fun x => (x, ms.count x)))).2 := by
    have h := List.find?_some hfind
    simpa using h
  have hzle : (pyMaxSnd (a, ms.count a) (l.map (fun x => (x, ms.count x)))).2 ≤
      maxSnd ((a, ms.count a) :: l.map (fun x => (x, ms.count x))) :=
    maxSnd_ge _ _ hzmem
  have hcount : ∀ m2 ∈ ms, ms.count m2 ≤
      ms.count (pyMaxSnd (a, ms.count a) (l.map (fun x => (x, ms.count x)))).1 := by
    intro m2 hm2
    have hmem2 : (m2, ms.count m2) ∈ (firstOccs ms).map (fun x => (x, ms.count x)) :=
      List.mem_map.mpr ⟨m2, (firstOccs_mem ms m2).mpr hm2, rfl⟩
    have h2 := maxSnd_ge _ _ hmem2
    rw [hfo, List.map_cons] at h2
    have h3 : ms.count m2 ≤
        maxSnd ((a, ms.count a) :: l.map (fun x => (x, ms.count x))) := h2
    rw [← hz2]
    exact le_trans h3 hpz
  have hlist : (a, ms.count a) :: l.map (fun x => (x, ms.count x)) =
      (firstOccs ms).map (fun x => (x, ms.count x)) := by
    rw [hfo, List.map_cons]
  refine ⟨(pyMaxSnd (a, ms.count a) (l.map (fun x => (x, ms.count x)))).1,
    hmcm, ?_, hcount, ?_⟩
  · rw [← hx0]
    exact (firstOccs_mem ms x0).mp hx0mem
  · have h3 := hfind
    rw [hlist, find?_map_fn] at h3
    rcases Option.map_eq_some'.mp h3 with ⟨b, hob, hfb⟩
    have hb : b = (pyMaxSnd (a, ms.count a) (l.map (fun x => (x, ms.count x)))).1 := by
      rw [← hfb]
    have hgoal : (firstOccs ms).find?
        (fun m2 => decide (maxSnd ((firstOccs ms).map (fun y => (y, ms.count y))) ≤
          ms.count m2)) = some b := hob
    have hmaxz : maxSnd ((firstOccs ms).map (fun y => (y, ms.count y))) =
        ms.count (pyMaxSnd (a, ms.count a) (l.map (fun x => (x, ms.count x)))).1 := by
      rw [← hz2, ← hlist]
      exact le_antisymm hpz hzle
    have hpointwise : ∀ x ∈ firstOccs ms,
        (decide (maxSnd ((firstOccs ms).map (fun y => (y, ms.count y))) ≤ ms.count x)) =
        (decide (ms.count x =
          ms.count (pyMaxSnd (a, ms.count a) (l.map (fun x => (x, ms.count x)))).1)) := by
      intro x hx
      have hmemx : (x, ms.count x) ∈ (firstOccs ms).map (fun y => (y, ms.count y)) :=
        List.mem_map.mpr ⟨x, hx, rfl⟩
      have hxle : ms.count x ≤
          maxSnd ((firstOccs ms).map (fun y => (y, ms.count y))) :=
        maxSnd_ge _ _ hmemx
      rw [decide_eq_decide]
      constructor
      · intro hle
        rw [← hmaxz]
        exact le_antisymm hxle hle
      · intro heq
        rw [← hmaxz] at heq
        exact le_of_eq heq.symm
    have hcongr := find?_congr_mem (firstOccs ms) _ _ hpointwise
    rw [← hcongr, hgoal, hb]

/-- C5: for every sequence of `record_success` / `record_error` calls,
`get_report` returns `success_rate = (total − failed) / total` (0 when
the total is 0); for each recorded error type the report carries
`percentage = typeCount / failed_tasks` (0 when there are no failures)
and the most frequent message of that type, ties broken by the first
encountered maximum in insertion order (the `find?` clause: the
reported message is the first message, in first-occurrence order, whose
count equals the maximal count). -/
theorem claim_C5_error_report (ops : List TrackOp) :
    (runOps ops).get_report.total_tasks = ops.length ∧
    (runOps ops).get_report.failed_tasks = numErrs ops ∧
    (runOps ops).get_report.success_rate =
      (if ops.length = 0 then 0
       else ((ops.length : ℚ) - (numErrs ops : ℚ)) / (ops.length : ℚ)) ∧
    (runOps ops).get_report.error_types = (typesOf ops).map (fun t =>
      (t, { count := (msgsOf ops t).length
            percentage := if numErrs ops = 0 then 0
              else ((msgsOf ops t).length : ℚ) / (numErrs ops : ℚ)
            mcm := most_common_message (histSpec (msgsOf ops t)) : TypeReport })) ∧
    (∀ t r, (t, r) ∈ (runOps ops).get_report.error_types →
      ∃ mm, r.mcm = some mm ∧ mm ∈ msgsOf ops t ∧
        (∀ m2 ∈ msgsOf ops t, (msgsOf ops t).count m2 ≤ (msgsOf ops t).count mm) ∧
        (firstOccs (msgsOf ops t)).find?
          (fun m2 => decide ((msgsOf ops t).count m2 = (msgsOf ops t).count mm)) =
          some mm) := by
  have hET : (runOps ops).get_report.error_types = (typesOf ops).map (fun t =>
      (t, { count := (msgsOf ops t).length
            percentage := if numErrs ops = 0 then 0
              else ((msgsOf ops t).length : ℚ) / (numErrs ops : ℚ)
            mcm := most_common_message (histSpec (msgsOf ops t)) : TypeReport })) := by
    simp only [ErrorTracker.get_report]
    rw [error_counts_runOps]
    unfold ecSpec
    rw [List.map_map]
    simp only [runOps_failed]
    refine List.map_congr_left ?_
    intro t ht
    simp only [Function.comp_apply]
  refine ⟨runOps_total ops, runOps_failed ops, ?_, hET, ?_⟩
  · simp only [ErrorTracker.get_report]
    rw [runOps_total, runOps_failed]
  · intro t r hmem
    rw [hET] at hmem
    obtain ⟨t2, ht2, heq⟩ := List.mem_map.mp hmem
    have ht2t : t2 = t := congrArg Prod.fst heq
    subst ht2t
    have hr : r = { count := (msgsOf ops t2).length
                    percentage := if numErrs ops = 0 then 0
                      else ((msgsOf ops t2).length : ℚ) / (numErrs ops : ℚ)
                    mcm := most_common_message (histSpec (msgsOf ops t2)) } :=
      (congrArg Prod.snd heq).symm
    obtain ⟨mm, hmcm, hmm_mem, hmax, hfind⟩ :=
      most_common_spec (msgsOf ops t2) (msgsOf_ne_nil ops t2 ht2)
    refine ⟨mm, ?_, hmm_mem, hmax, hfind⟩
    rw [hr]
    exact hmcm

/-- Witness for C5 on a concrete history: one success and three errors
give a success rate of 1/4. -/
theorem claim_C5_error_report_witness :
    (runOps [.succ, .err ("A") ("m1"), .err ("A") ("m2"),
      .err ("A") ("m2")]).get_report.success_rate = 1 / 4 := by
  have h := (claim_C5_error_report [.succ, .err ("A") ("m1"), .err ("A") ("m2"),
    .err ("A") ("m2")]).2.2.1
  rw [h]
  norm_num [numErrs, errList, List.filterMap_cons]

/-- C9 counterexample: `record_success` executes
`self.total_tasks += 1` with no lock, i.e. a read of the shared
attribute followed by a write of `read + 1`.  Under the interleaving
read₀, read₁, write₀, write₁ both of two concurrent calls complete, yet
`total_tasks` is 1, not 2 — one update is lost, so the claimed
serialization does not exist in the code. -/
theorem claim_C9_lost_update_counterexample :
    (runConc [0, 1, 0, 1] 2).done = true ∧
    (runConc [0, 1, 0, 1] 2).total = 1 ∧
    ¬ (runConc [0, 1, 0, 1] 2).total = 2 := by
  refine ⟨rfl, rfl, ?_⟩
  intro h
  simp [runConc, concStep] at h

/-- C9 (amended): the tracker's counters are correct when the
`record_success` / `record_error` calls are serialized — after any
sequence of M calls, `get_report` reports `total_tasks = M` and
`failed_tasks` equal to the number of `record_error` calls.  The code
contains no lock, so this guarantee is only established for serialized
(sequential) invocation; `claim_C9_lost_update_counterexample` exhibits
a concurrent interleaving of the unsynchronized increments that loses
an update. -/
theorem claim_C9_tracker_sequential (ops : List TrackOp) :
    (runOps ops).get_report.total_tasks = ops.length ∧
    (runOps ops).get_report.failed_tasks = numErrs ops :=
  ⟨runOps_total ops, runOps_failed ops⟩

/-! ### The dispatch engine drain loop -/

lemma drainStep_inr_spec [Inhabited P] (beh : Nat → P → Except String V)
    (rp : Nat → Option P) (hT : Bool) (s : SStep) (st st2 : DState P V)
    (hne : st.pending ≠ []) (h : drainStep beh rp hT s st = Sum.inr st2) :
    StepRel beh rp st st2 := by
  have hlen : 0 < st.pending.length := List.length_pos.mpr hne
  cases s with
  | wtimeout ex =>
    simp only [drainStep] at h
    by_cases hte : (hT && ex) = true
    · rw [if_pos hte] at h
      exact absurd h (by simp)
    · rw [if_neg hte] at h
      exact Or.inl (Sum.inr.inj h).symm
  | complete i ex =>
    simp only [drainStep] at h
    cases hbeh : beh (st.pending.getD (i % st.pending.length) (0, default)).1
        (st.pending.getD (i % st.pending.length) (0, default)).2 with
    | ok v =>
      rw [hbeh] at h
      dsimp only at h
      by_cases hte : (hT && ex) = true
      · rw [if_pos hte] at h
        exact absurd h (by simp)
      · rw [if_neg hte] at h
        exact Or.inr ⟨i % st.pending.length, Nat.mod_lt _ hlen,
          Or.inl ⟨v, hbeh, (Sum.inr.inj h).symm⟩⟩
    | error m =>
      rw [hbeh] at h
      dsimp only at h
      by_cases hb : 0 < st.budget
      · rw [if_pos hb] at h
        cases hrp : rp st.completed with
        | none =>
          rw [hrp] at h
          exact absurd h (by simp)
        | some p =>
          rw [hrp] at h
          dsimp only at h
          by_cases hte : (hT && ex) = true
          · rw [if_pos hte] at h
            exact absurd h (by simp)
          · rw [if_neg hte] at h
            exact Or.inr ⟨i % st.pending.length, Nat.mod_lt _ hlen,
              Or.inr (Or.inl ⟨m, p, hbeh, hb, hrp, (Sum.inr.inj h).symm⟩)⟩
      · rw [if_neg hb] at h
        by_cases hte : (hT && ex) = true
        · rw [if_pos hte] at h
          exact absurd h (by simp)
        · rw [if_neg hte] at h
          exact Or.inr ⟨i % st.pending.length, Nat.mod_lt _ hlen,
            Or.inr (Or.inr ⟨m, hbeh, hb, (Sum.inr.inj h).symm⟩)⟩

lemma drainStep_inl_spec [Inhabited P] (beh : Nat → P → Except String V)
    (rp : Nat → Option P) (hT : Bool) (s : SStep) (st : DState P V)
    (out : DState P V × REnd) (hne : st.pending ≠ [])
    (h : drainStep beh rp hT s st = Sum.inl out) :
    (out = (st, REnd.crashed) ∧ 0 < st.budget ∧ rp st.completed = none) ∨
    (∃ stMid, StepRel beh rp st stMid ∧ out = (fillTimeout stMid, REnd.timedOut)) := by
  have hlen : 0 < st.pending.length := List.length_pos.mpr hne
  cases s with
  | wtimeout ex =>
    simp only [drainStep] at h
    by_cases hte : (hT && ex) = true
    · rw [if_pos hte] at h
      exact Or.inr ⟨st, Or.inl rfl, (Sum.inl.inj h).symm⟩
    · rw [if_neg hte] at h
      exact absurd h (by simp)
  | complete i ex =>
    simp only [drainStep] at h
    cases hbeh : beh (st.pending.getD (i % st.pending.length) (0, default)).1
        (st.pending.getD (i % st.pending.length) (0, default)).2 with
    | ok v =>
      rw [hbeh] at h
      dsimp only at h
      by_cases hte : (hT && ex) = true
      · rw [if_pos hte] at h
        refine Or.inr ⟨_, Or.inr ⟨i % st.pending.length, Nat.mod_lt _ hlen,
          Or.inl ⟨v, hbeh, rfl⟩⟩, (Sum.inl.inj h).symm⟩
      · rw [if_neg hte] at h
        exact absurd h (by simp)
    | error m =>
      rw [hbeh] at h
      dsimp only at h
      by_cases hb : 0 < st.budget
      · rw [if_pos hb] at h
        cases hrp : rp st.completed with
        | none =>
          rw [hrp] at h
          exact Or.inl ⟨(Sum.inl.inj h).symm, hb, rfl⟩
        | some p =>
          rw [hrp] at h
          dsimp only at h
          by_cases hte : (hT && ex) = true
          · rw [if_pos hte] at h
            refine Or.inr ⟨_, Or.inr ⟨i % st.pending.length, Nat.mod_lt _ hlen,
              Or.inr (Or.inl ⟨m, p, hbeh, hb, hrp, rfl⟩)⟩, (Sum.inl.inj h).symm⟩
          · rw [if_neg hte] at h
            exact absurd h (by simp)
      · rw [if_neg hb] at h
        by_cases hte : (hT && ex) = true
        · rw [if_pos hte] at h
          refine Or.inr ⟨_, Or.inr ⟨i % st.pending.length, Nat.mod_lt _ hlen,
            Or.inr (Or.inr ⟨m, hbeh, hb, rfl⟩)⟩, (Sum.inl.inj h).symm⟩
        · rw [if_neg hte] at h
          exact absurd h (by simp)

lemma getD_cons_eraseIdx_perm (l : List α) (j : Nat) (d : α) (hj : j < l.length) :
    l.Perm (l.getD j d :: l.eraseIdx j) := by
  induction l generalizing j with
  | nil => simp at hj
  | cons x xs ih =>
    cases j with
    | zero => simp [List.getD]
    | succ j2 =>
      have hj2 : j2 < xs.length := by simpa using hj
      have hperm := ih j2 hj2
      simp only [List.getD_cons_succ, List.eraseIdx_cons_succ]
      exact (hperm.cons x).trans (List.Perm.swap _ _ _)

/-- When every submission succeeds (or the retry budget is zero, so
failures are terminal), a drain run that finishes consumes every
pending future exactly once: the appended results are the outcomes of
the pending futures in some completion order. -/
lemma drain_results_perm [Inhabited P] (beh : Nat → P → Except String V)
    (rp : Nat → Option P) (hT : Bool) :
    ∀ (sched : List SStep) (st : DState P V),
      (st.budget = 0 ∨ ∀ id p, ∃ v, beh id p = Except.ok v) →
      (drain beh rp hT sched st).2 = REnd.finished →
      ∃ q : List (Nat × P), List.Perm q st.pending ∧
        (drain beh rp hT sched st).1.results =
          st.results ++ List.map (entryOf beh) q := by
  intro sched
  induction sched with
  | nil =>
    intro st hbud hfin
    by_cases hpe : st.pending = []
    · refine ⟨[], by rw [hpe], ?_⟩
      simp [drain, hpe]
    · have hie : st.pending.isEmpty = false := by
        cases hq : st.pending with
        | nil => exact absurd hq hpe
        | cons a b => rfl
      simp [drain, hie] at hfin
  | cons s rest ih =>
    intro st hbud hfin
    by_cases hpe : st.pending = []
    · refine ⟨[], by rw [hpe], ?_⟩
      simp [drain, hpe]
    · have hie : st.pending.isEmpty = false := by
        cases hq : st.pending with
        | nil => exact absurd hq hpe
        | cons a b => rfl
      simp only [drain, hie, Bool.false_eq_true, if_false] at hfin ⊢
      cases hstep : drainStep beh rp hT s st with
      | inl out =>
        rw [hstep] at hfin
        dsimp only at hfin
        rcases drainStep_inl_spec beh rp hT s st out hpe hstep with
          ⟨hout, _, _⟩ | ⟨stMid, _, hout⟩
        · rw [hout] at hfin
          exact absurd hfin (by simp)
        · rw [hout] at hfin
          exact absurd hfin (by simp)
      | inr st2 =>
        rw [hstep] at hfin
        dsimp only at hfin ⊢
        rcases drainStep_inr_spec beh rp hT s st st2 hpe hstep with heq | hrel
        · subst heq
          exact ih st2 hbud hfin
        · obtain ⟨j, hj, hcase⟩ := hrel
          rcases hcase with ⟨v, hbeh, hst2⟩ | ⟨m, p, hbeh, hb, hrp, hst2⟩ |
            ⟨m, hbeh, hb0, hst2⟩
          · have hbud2 : st2.budget = 0 ∨ ∀ id p, ∃ v, beh id p = Except.ok v := by
              rcases hbud with hb | hall
              · left
                rw [hst2]
                exact hb
              · exact Or.inr hall
            obtain ⟨q2, hq2, hres2⟩ := ih st2 hbud2 hfin
            refine ⟨st.pending.getD j (0, default) :: q2, ?_, ?_⟩
            · have hmain := getD_cons_eraseIdx_perm st.pending j (0, default) hj
              have hq2e : List.Perm q2 (st.pending.eraseIdx j) := by
                rw [hst2] at hq2
                exact hq2
              exact (hq2e.cons _).trans hmain.symm
            · rw [hres2, hst2]
              have hent : entryOf beh (st.pending.getD j (0, default)) = Entry.ok v := by
                unfold entryOf
                rw [hbeh]
              simp only [List.map_cons, hent]
              rw [List.append_assoc, List.singleton_append]
          · exfalso
            rcases hbud with hbz | hall
            · rw [hbz] at hb
              exact absurd hb (by simp)
            · obtain ⟨v, hv⟩ := hall (st.pending.getD j (0, default)).1
                (st.pending.getD j (0, default)).2
              rw [hv] at hbeh
              exact absurd hbeh (by simp)
          · have hbud2 : st2.budget = 0 ∨ ∀ id p, ∃ v, beh id p = Except.ok v := by
              rcases hbud with hb | hall
              · left
                rw [hst2]
                exact hb
              · exact Or.inr hall
            obtain ⟨q2, hq2, hres2⟩ := ih st2 hbud2 hfin
            refine ⟨st.pending.getD j (0, default) :: q2, ?_, ?_⟩
            · have hmain := getD_cons_eraseIdx_perm st.pending j (0, default) hj
              have hq2e : List.Perm q2 (st.pending.eraseIdx j) := by
                rw [hst2] at hq2
                exact hq2
              exact (hq2e.cons _).trans hmain.symm
            · rw [hres2, hst2]
              have hent : entryOf beh (st.pending.getD j (0, default)) = Entry.err m := by
                unfold entryOf
                rw [hbeh]
              simp only [List.map_cons, hent]
              rw [List.append_assoc, List.singleton_append]

lemma countNone_append (a b : List (Entry V)) :
    countNone (a ++ b) = countNone a + countNone b := by
  simp [countNone, List.filter_append]

lemma countNone_ok (l : List (Entry V)) (v : V) :
    countNone (l ++ [Entry.ok v]) = countNone l := by
  simp [countNone, List.filter_append, Entry.isNone]

lemma countNone_err (l : List (Entry V)) (m : String) :
    countNone (l ++ [Entry.err m]) = countNone l := by
  simp [countNone, List.filter_append, Entry.isNone]

lemma countNone_replicate (k : Nat) :
    countNone (List.replicate k (Entry.noneE : Entry V)) = k := by
  induction k with
  | zero => rfl
  | succ k ih =>
    rw [List.replicate_succ]
    simp only [countNone, List.filter_cons] at ih ⊢
    simp [Entry.isNone, ih]

lemma countReal_add_countNone (l : List (Entry V)) :
    countReal l + countNone l = l.length := by
  induction l with
  | nil => rfl
  | cons e rest ih =>
    cases e <;>
      simp only [countReal, countNone, List.filter_cons, Entry.isNone, List.length_cons,
        Bool.not_true, Bool.not_false] at ih ⊢ <;>
      simp at ih ⊢ <;> omega

/-- One continuing drain iteration preserves the slot budget
(`len(results) + len(pending)`), the bound of `completed` by the number
of results, and the number of timeout sentinels (none are produced
outside the deadline path). -/
lemma StepRel_facts [Inhabited P] {beh : Nat → P → Except String V}
    {rp : Nat → Option P} {st st2 : DState P V} (h : StepRel beh rp st st2) :
    st2.results.length + st2.pending.length =
      st.results.length + st.pending.length ∧
    (st.completed ≤ st.results.length → st2.completed ≤ st2.results.length) ∧
    countNone st2.results = countNone st.results := by
  rcases h with heq | ⟨j, hj, hcase⟩
  · subst heq
    exact ⟨rfl, fun h => h, rfl⟩
  · have hpendlen : (st.pending.eraseIdx j).length = st.pending.length - 1 := by
      rw [List.length_eraseIdx st.pending j, if_pos hj]
    rcases hcase with ⟨v, _, hst2⟩ | ⟨m, p, _, _, _, hst2⟩ | ⟨m, _, _, hst2⟩ <;> subst hst2
    · refine ⟨?_, ?_, countNone_ok _ _⟩
      · simp only [List.length_append, List.length_cons, List.length_nil, hpendlen]
        omega
      · intro h
        simp only [List.length_append, List.length_cons, List.length_nil]
        omega
    · refine ⟨?_, fun h => h, rfl⟩
      simp only [List.length_append, List.length_cons, List.length_nil, hpendlen]
      omega
    · refine ⟨?_, ?_, countNone_err _ _⟩
      · simp only [List.length_append, List.length_cons, List.length_nil, hpendlen]
        omega
      · intro h
        simp only [List.length_append, List.length_cons, List.length_nil]
        omega

/-- Main safety facts of the drain loop: the retry path's
`items[completed]` access never falls outside the item list (the run
never crashes); a run that finishes or times out has exactly
`len(results) + len(pending)` result slots (no slot is dropped); a
finished run contains no timeout sentinel; a timed-out run contains one
sentinel per abandoned future. -/
lemma drain_main [Inhabited P] (beh : Nat → P → Except String V)
    (rp : Nat → Option P) (hT : Bool) :
    ∀ (sched : List SStep) (st : DState P V),
      (∀ c, c + 1 ≤ st.results.length + st.pending.length → (rp c).isSome = true) →
      st.completed ≤ st.results.length →
      ((drain beh rp hT sched st).2 ≠ REnd.crashed) ∧
      (((drain beh rp hT sched st).2 = REnd.finished ∨
        (drain beh rp hT sched st).2 = REnd.timedOut) →
        (drain beh rp hT sched st).1.results.length =
          st.results.length + st.pending.length) ∧
      ((drain beh rp hT sched st).2 = REnd.finished →
        countNone (drain beh rp hT sched st).1.results = countNone st.results) ∧
      ((drain beh rp hT sched st).2 = REnd.timedOut →
        countNone (drain beh rp hT sched st).1.results =
          countNone st.results + (drain beh rp hT sched st).1.pending.length) := by
  intro sched
  induction sched with
  | nil =>
    intro st hrp hcomp
    by_cases hpe : st.pending = []
    · have hd : drain beh rp hT [] st = (st, REnd.finished) := by
        simp [drain, hpe]
      rw [hd]
      refine ⟨by simp, ?_, fun _ => rfl, by simp⟩
      intro _
      rw [hpe]
      simp
    · have hie : st.pending.isEmpty = false := by
        cases hq : st.pending with
        | nil => exact absurd hq hpe
        | cons a b => rfl
      have hd : drain beh rp hT [] st = (st, REnd.outOfSched) := by
        simp [drain, hie]
      rw [hd]
      refine ⟨by simp, ?_, by simp, by simp⟩
      rintro (h | h) <;> simp at h
  | cons s rest ih =>
    intro st hrp hcomp
    by_cases hpe : st.pending = []
    · have hd : drain beh rp hT (s :: rest) st = (st, REnd.finished) := by
        simp [drain, hpe]
      rw [hd]
      refine ⟨by simp, ?_, fun _ => rfl, by simp⟩
      intro _
      rw [hpe]
      simp
    · have hie : st.pending.isEmpty = false := by
        cases hq : st.pending with
        | nil => exact absurd hq hpe
        | cons a b => rfl
      have hplen : 1 ≤ st.pending.length := by
        cases hq : st.pending with
        | nil => exact absurd hq hpe
        | cons a b => simp [hq]
      simp only [drain, hie, Bool.false_eq_true, if_false]
      cases hstep : drainStep beh rp hT s st with
      | inl out =>
        dsimp only
        rcases drainStep_inl_spec beh rp hT s st out hpe hstep with
          ⟨hout, hb, hrpnone⟩ | ⟨stMid, hrel, hout⟩
        · exfalso
          have hlt : st.completed + 1 ≤ st.results.length + st.pending.length := by
            omega
          have := hrp st.completed hlt
          rw [hrpnone] at this
          simp at this
        · obtain ⟨hsum, _, hcn⟩ := StepRel_facts hrel
          rw [hout]
          refine ⟨by simp, ?_, by simp, ?_⟩
          · intro _
            simp only [fillTimeout, List.length_append, List.length_replicate]
            omega
          · intro _
            simp only [fillTimeout, countNone_append, countNone_replicate]
            rw [hcn]
      | inr st2 =>
        dsimp only
        obtain ⟨hsum, hcomp2, hcn⟩ :=
          StepRel_facts (drainStep_inr_spec beh rp hT s st st2 hpe hstep)
        have hrp2 : ∀ c, c + 1 ≤ st2.results.length + st2.pending.length →
            (rp c).isSome = true := by
          intro c hc
          exact hrp c (by omega)
        obtain ⟨ha, hb, hc, hd⟩ := ih st2 hrp2 (hcomp2 hcomp)
        refine ⟨ha, ?_, ?_, ?_⟩
        · intro h
          rw [hb h, hsum]
        · intro h
          rw [hc h, hcn]
        · intro h
          rw [hd h, hcn]

/-- C1 counterexample: a non-batched call over `[10, 20]` with an echo
work function and no timeout, where the second future resolves first.
The call finishes normally, but the engine appends results in
completion order (`task_manager.py` line 195), so the returned list is
`[20, 10]` — result slot 0 holds the outcome of `items[1]`, not of
`items[0]`.  The code keeps no positional mapping from future to result
slot. -/
theorem claim_C1_positional_alignment_counterexample :
    (distribute_single (fun _ a => (Except.ok a : Except String Nat)) [10, 20] false 0
      [.complete 1 false, .complete 0 false]).2 = REnd.finished ∧
    (distribute_single (fun _ a => (Except.ok a : Except String Nat)) [10, 20] false 0
      [.complete 1 false, .complete 0 false]).1.results =
      [Entry.ok 20, Entry.ok 10] ∧
    ¬ (distribute_single (fun _ a => (Except.ok a : Except String Nat)) [10, 20] false 0
      [.complete 1 false, .complete 0 false]).1.results =
      [Entry.ok 10, Entry.ok 20] := by
  refine ⟨rfl, rfl, ?_⟩
  intro h
  have h2 : (Entry.ok 20 : Entry Nat) = Entry.ok 10 := congrArg (fun l => l.getD 0 .noneE) h
  simp at h2

/-- C1 (amended): for a non-batched call in which no call-level timeout
fires, the returned list has the same length as the input list; and
when additionally no submission fails (or `retry_attempts = 0`, so
failures are terminal), the returned entries are exactly the per-item
outcomes — `entryOf` of each submitted future — in completion order,
i.e. some permutation of the items' outcomes.  Positional alignment
with the input order is not guaranteed
(`claim_C1_positional_alignment_counterexample`). -/
theorem claim_C1_completion_order [Inhabited α] (beh : Nat → α → Except String β)
    (items : List α) (hT : Bool) (ra : Nat) (sched : List SStep) :
    ((distribute_single beh items hT ra sched).2 = REnd.finished →
      (distribute_single beh items hT ra sched).1.results.length = items.length) ∧
    ((ra = 0 ∨ ∀ id p, ∃ v, beh id p = Except.ok v) →
      (distribute_single beh items hT ra sched).2 = REnd.finished →
      ∃ q : List (Nat × α), List.Perm q items.enum ∧
        (distribute_single beh items hT ra sched).1.results =
          List.map (entryOf beh) q ∧
        List.Perm (distribute_single beh items hT ra sched).1.results
          (List.map (entryOf beh) items.enum)) := by
  have hrp : ∀ c, c + 1 ≤ (initSingle items ra : DState α β).results.length +
      (initSingle items ra : DState α β).pending.length →
      ((fun c => items.get? c) c).isSome = true := by
    intro c hc
    simp only [initSingle, List.length_nil, List.enum_length, Nat.zero_add] at hc
    show (items.get? c).isSome = true
    rw [List.get?_eq_get (show c < items.length by omega)]
    rfl
  constructor
  · intro hfin
    have h := (drain_main beh (fun c => items.get? c) hT sched
      (initSingle items ra) hrp (by simp [initSingle])).2.1 (Or.inl hfin)
    simpa [initSingle, distribute_single] using h
  · intro hbud hfin
    have hbud2 : (initSingle items ra : DState α β).budget = 0 ∨
        ∀ id p, ∃ v, beh id p = Except.ok v := by
      rcases hbud with h | h
      · exact Or.inl (by simp [initSingle, h])
      · exact Or.inr h
    obtain ⟨q, hq, hres⟩ := drain_results_perm beh (fun c => items.get? c) hT sched
      (initSingle items ra) hbud2 hfin
    refine ⟨q, ?_, ?_, ?_⟩
    · simpa [initSingle] using hq
    · simpa [initSingle, distribute_single] using hres
    · have hres2 : (distribute_single beh items hT ra sched).1.results =
          List.map (entryOf beh) q := by
        simpa [initSingle, distribute_single] using hres
      rw [hres2]
      have hq2 : List.Perm q items.enum := by simpa [initSingle] using hq
      exact hq2.map (entryOf beh)

/-- Witness for the amended C1 at the counterexample input: the run
finishes and has exactly as many result slots as items. -/
theorem claim_C1_completion_order_witness :
    (distribute_single (fun _ a => (Except.ok a : Except String Nat)) [10, 20] false 0
      [.complete 1 false, .complete 0 false]).1.results.length = 2 :=
  (claim_C1_completion_order (fun _ a => (Except.ok a : Except String Nat))
    [10, 20] false 0 [.complete 1 false, .complete 0 false]).1 rfl

/-- C3: the failing input for the per-item retry claim.  Items
`[10, 20]` with `retry_attempts = 3`; the work function fails exactly
on future id 1, the first submission of item 20, and that future
resolves first.  The engine's retry path (`task_manager.py` line 211)
resubmits `items[completed]` with `completed = 0` — item 10, not the
failed item 20 — and decrements the one call-wide budget.  The run
finishes with results `[10's outcome, 10's outcome]`: item 20 is never
retried, never receives a terminal error record, and its outcome is
absent, while item 10 is processed twice; the final budget 2 shows the
budget is shared across items rather than per item. -/
theorem claim_C3_wrong_item_retried :
    (distribute_single
      (fun id a => if id = 1 then (Except.error ("boom") : Except String Nat)
        else Except.ok a)
      [10, 20] false 3
      [.complete 1 false, .complete 0 false, .complete 0 false]).2 = REnd.finished ∧
    (distribute_single
      (fun id a => if id = 1 then (Except.error ("boom") : Except String Nat)
        else Except.ok a)
      [10, 20] false 3
      [.complete 1 false, .complete 0 false, .complete 0 false]).1.results =
      [Entry.ok 10, Entry.ok 10] ∧
    (distribute_single
      (fun id a => if id = 1 then (Except.error ("boom") : Except String Nat)
        else Except.ok a)
      [10, 20] false 3
      [.complete 1 false, .complete 0 false, .complete 0 false]).1.budget = 2 :=
  ⟨rfl, rfl, rfl⟩

/-- C7: every submitted unit of work resolves to a successful payload,
an error payload, or a timeout sentinel — never a silently dropped slot
(a finished or timed-out run has exactly `len(items)` result slots) and
never an exception to the caller (the run never ends `crashed`); a
finished run has no sentinel; if the deadline elapses with K futures
consumed, exactly `N − K` slots are sentinels — one per abandoned
pending future — and K are real outcomes. -/
theorem claim_C7_no_silent_drop [Inhabited α] (beh : Nat → α → Except String β)
    (items : List α) (hT : Bool) (ra : Nat) (sched : List SStep) :
    ((distribute_single beh items hT ra sched).2 ≠ REnd.crashed) ∧
    (((distribute_single beh items hT ra sched).2 = REnd.finished ∨
      (distribute_single beh items hT ra sched).2 = REnd.timedOut) →
      (distribute_single beh items hT ra sched).1.results.length = items.length ∧
      countReal (distribute_single beh items hT ra sched).1.results +
        countNone (distribute_single beh items hT ra sched).1.results =
        items.length) ∧
    ((distribute_single beh items hT ra sched).2 = REnd.finished →
      countNone (distribute_single beh items hT ra sched).1.results = 0) ∧
    ((distribute_single beh items hT ra sched).2 = REnd.timedOut →
      countNone (distribute_single beh items hT ra sched).1.results =
        (distribute_single beh items hT ra sched).1.pending.length ∧
      countReal (distribute_single beh items hT ra sched).1.results =
        items.length -
          (distribute_single beh items hT ra sched).1.pending.length) := by
  have hrp : ∀ c, c + 1 ≤ (initSingle items ra : DState α β).results.length +
      (initSingle items ra : DState α β).pending.length →
      ((fun c => items.get? c) c).isSome = true := by
    intro c hc
    simp only [initSingle, List.length_nil, List.enum_length, Nat.zero_add] at hc
    show (items.get? c).isSome = true
    rw [List.get?_eq_get (show c < items.length by omega)]
    rfl
  obtain ⟨ha, hb, hc, hd⟩ := drain_main beh (fun c => items.get? c) hT sched
    (initSingle items ra) hrp (by simp [initSingle])
  have hb2 : ((distribute_single beh items hT ra sched).2 = REnd.finished ∨
      (distribute_single beh items hT ra sched).2 = REnd.timedOut) →
      (distribute_single beh items hT ra sched).1.results.length = items.length := by
    intro h
    have := hb h
    simpa [initSingle, distribute_single] using this
  have hds : distribute_single beh items hT ra sched =
      drain beh (fun c => items.get? c) hT sched (initSingle items ra) := rfl
  have h0 : countNone (initSingle items ra : DState α β).results = 0 := rfl
  refine ⟨ha, ?_, ?_, ?_⟩
  · intro h
    refine ⟨hb2 h, ?_⟩
    rw [countReal_add_countNone, hb2 h]
  · intro h
    rw [hds]
    have h1 := hc h
    omega
  · intro h
    have hcn : countNone (distribute_single beh items hT ra sched).1.results =
        (distribute_single beh items hT ra sched).1.pending.length := by
      rw [hds]
      have h1 := hd h
      omega
    refine ⟨hcn, ?_⟩
    have hlen := hb2 (Or.inr h)
    have hsum := countReal_add_countNone
      (distribute_single beh items hT ra sched).1.results
    omega

/-- Witness for C7: three items, deadline elapsing after one
completion — two sentinel slots, one real outcome. -/
theorem claim_C7_no_silent_drop_witness :
    countNone (distribute_single (fun _ a => (Except.ok a : Except String Nat))
      [1, 2, 3] true 0 [.complete 0 true]).1.results = 2 :=
  (((claim_C7_no_silent_drop (fun _ a => (Except.ok a : Except String Nat))
    [1, 2, 3] true 0 [.complete 0 true]).2.2.2 rfl).1).trans rfl

/-- C6: a `file_sizes` list whose length disagrees with `items` does
not make the call fail — the validation replaces it by `None` (with a
logged warning), the per-item and per-batch resource requests are
computed exactly as if no size hints had been supplied, and the rest of
the dispatch pipeline is unchanged: on both the non-batched and the
batched path the whole call result is equal to the call without hints.
(The empty-list case is covered too: Python's truthiness skips the
validation, but an empty list is also falsy at every use site, so the
behaviour still equals the no-hints call.) -/
theorem claim_C6_size_hints_discarded [Inhabited α] (sys : SysInfo) (tt : String)
    (mi : Bool) (beh : Nat → α → Except String β)
    (bbeh : Nat → BPayload α → Except String (BOut γ)) (items : List α)
    (fs : List Nat) (B : Nat) (hT : Bool) (ra : Nat) (sched : List SStep)
    (hlen : fs.length ≠ items.length) :
    distribute_tasks_single sys tt mi beh items (some fs) hT ra sched =
      distribute_tasks_single sys tt mi beh items none hT ra sched ∧
    distribute_tasks_batched sys tt mi bbeh items B (some fs) hT ra sched =
      distribute_tasks_batched sys tt mi bbeh items B none hT ra sched := by
  have heffnone : effective_file_sizes items.length none = none := rfl
  by_cases hfs : fs = []
  · subst hfs
    have heff : effective_file_sizes items.length (some []) = some [] := by
      simp [effective_file_sizes]
    have hsub : singleSubmissions sys tt mi items.length (some []) =
        singleSubmissions sys tt mi items.length none := by
      unfold singleSubmissions
      refine List.map_congr_left ?_
      intro i _
      rfl
    have hbs : batchedSizes B (some ([] : List Nat)) = batchedSizes B none := by
      simp [batchedSizes]
    constructor
    · simp only [distribute_tasks_single, heff, hsub, heffnone]
    · simp only [distribute_tasks_batched, heff, hbs, heffnone]
  · have heff : effective_file_sizes items.length (some fs) = none := by
      unfold effective_file_sizes
      dsimp only
      rw [if_pos ⟨hfs, hlen⟩]
    constructor
    · simp only [distribute_tasks_single, heff, heffnone]
    · simp only [distribute_tasks_batched, heff, heffnone]

/-- Witness for C6: one size hint against three items is discarded on
both paths. -/
theorem claim_C6_size_hints_discarded_witness :
    distribute_tasks_single ⟨8, 1000⟩ ("default") false
        (fun _ a => (Except.ok a : Except String Nat)) [1, 2, 3] (some [5]) false 0 [] =
      distribute_tasks_single ⟨8, 1000⟩ ("default") false
        (fun _ a => (Except.ok a : Except String Nat)) [1, 2, 3] none false 0 [] :=
  (claim_C6_size_hints_discarded ⟨8, 1000⟩ ("default") false
    (fun _ a => (Except.ok a : Except String Nat))
    (fun _ _ => (Except.ok (BOut.vals []) : Except String (BOut Nat)))
    [1, 2, 3] [5] 2 false 0 [] (by decide)).1

/-! ### Batching -/

lemma chunkAux_nil (B f : Nat) : chunkAux B f ([] : List α) = [] := by
  cases f <;> rfl

lemma chunkAux_flatten (B : Nat) (hB : 1 ≤ B) :
    ∀ (fuel : Nat) (l : List α), l.length ≤ fuel →
      (chunkAux B fuel l).flatten = l := by
  intro fuel
  induction fuel with
  | zero =>
    intro l hl
    have h0 : l = [] := List.length_eq_zero.mp (Nat.le_zero.mp hl)
    subst h0
    rfl
  | succ f ih =>
    intro l hl
    cases l with
    | nil => rfl
    | cons a l2 =>
      show ((a :: l2).take B :: chunkAux B f ((a :: l2).drop B)).flatten = a :: l2
      have hdrop : ((a :: l2).drop B).length ≤ f := by
        rw [List.length_drop]
        simp only [List.length_cons] at hl ⊢
        omega
      rw [List.flatten_cons, ih _ hdrop, List.take_append_drop]

lemma chunkList_flatten (B : Nat) (hB : 1 ≤ B) (l : List α) :
    (chunkList B l).flatten = l :=
  chunkAux_flatten B hB l.length l (le_refl _)

lemma chunkAux_mem (B : Nat) (hB : 1 ≤ B) :
    ∀ (f : Nat) (l : List α), ∀ c ∈ chunkAux B f l, c ≠ [] ∧ c.length ≤ B := by
  intro f
  induction f with
  | zero =>
    intro l c hc
    simp [chunkAux] at hc
  | succ f ih =>
    intro l c hc
    cases l with
    | nil => simp [chunkAux] at hc
    | cons a l2 =>
      rcases List.mem_cons.mp hc with rfl | hmem
      · refine ⟨?_, List.length_take_le _ _⟩
        obtain ⟨b, rfl⟩ : ∃ b, B = b + 1 := ⟨B - 1, by omega⟩
        simp
      · exact ih _ c hmem

lemma chunkAux_full (B : Nat) (hB : 1 ≤ B) :
    ∀ (f : Nat) (l : List α) (i : Nat), l.length ≤ f →
      i + 1 < (chunkAux B f l).length → ((chunkAux B f l).getD i []).length = B := by
  intro f
  induction f with
  | zero =>
    intro l i hl hi
    rw [List.length_eq_zero.mp (Nat.le_zero.mp hl)] at hi
    simp [chunkAux] at hi
  | succ f ih =>
    intro l i hl hi
    cases l with
    | nil => simp [chunkAux] at hi
    | cons a l2 =>
      have hdrop : ((a :: l2).drop B).length ≤ f := by
        rw [List.length_drop]
        simp only [List.length_cons] at hl ⊢
        omega
      cases i with
      | zero =>
        show ((a :: l2).take B).length = B
        have hrest : chunkAux B f ((a :: l2).drop B) ≠ [] := by
          intro hnil
          show False
          simp only [chunkAux, List.length_cons] at hi
          rw [hnil] at hi
          simp at hi
        have hdne : (a :: l2).drop B ≠ [] := by
          intro hnil
          rw [hnil, chunkAux_nil] at hrest
          exact hrest rfl
        have hlen : B < (a :: l2).length := by
          by_contra hcon
          exact hdne (List.drop_eq_nil_of_le (by omega))
        rw [List.length_take]
        omega
      | succ i2 =>
        show ((chunkAux B f ((a :: l2).drop B)).getD i2 []).length = B
        refine ih _ i2 hdrop ?_
        simp only [chunkAux, List.length_cons] at hi
        omega

lemma foldl_max_spec : ∀ (l : List Nat) (a : Nat),
    (∀ x ∈ l, x ≤ l.foldl max a) ∧
    (l.foldl max a = a ∨ l.foldl max a ∈ l) ∧ a ≤ l.foldl max a := by
  intro l
  induction l with
  | nil =>
    intro a
    exact ⟨by simp, Or.inl rfl, le_refl a⟩
  | cons y ys ih =>
    intro a
    obtain ⟨hall, hmem, hle⟩ := ih (max a y)
    rw [List.foldl_cons]
    refine ⟨?_, ?_, ?_⟩
    · intro x hx
      rcases List.mem_cons.mp hx with rfl | hx2
      · exact le_trans (le_max_right a x) hle
      · exact hall x hx2
    · rcases hmem with he | hm
      · rcases max_choice a y with h1 | h1
        · exact Or.inl (he.trans h1)
        · exact Or.inr (List.mem_cons.mpr (Or.inl (he.trans h1)))
      · exact Or.inr (List.mem_cons_of_mem y hm)
    · exact le_trans (le_max_left a y) hle

/-- `max(batch)`: `listMax` of a nonempty list is a member and bounds
every member. -/
lemma listMax_spec (l : List Nat) (hne : l ≠ []) :
    listMax l ∈ l ∧ ∀ x ∈ l, x ≤ listMax l := by
  obtain ⟨hall, hmem, _⟩ := foldl_max_spec l 0
  refine ⟨?_, hall⟩
  rcases hmem with he | hm
  · cases l with
    | nil => exact absurd rfl hne
    | cons z zs =>
      have hz := hall z (List.mem_cons_self _ _)
      rw [he] at hz
      have hz0 : z = 0 := Nat.le_zero.mp hz
      show listMax (z :: zs) ∈ z :: zs
      unfold listMax
      rw [he, hz0]
      exact List.mem_cons_self _ _
  · exact hm

lemma batchSubmissions_get? (sys : SysInfo) (tt : String) (mi : Bool)
    (n : Nat) (bl : List (List Nat)) (i : Nat) (hi : i < n) :
    (batchSubmissions sys tt mi n (some bl)).get? i =
      some (get_optimal_resource_allocation sys tt
        (some (listMax (bl.getD i []))) mi) := by
  unfold batchSubmissions
  rw [List.get?_map, List.get?_range hi]
  rfl

lemma filterMap_payloadBatch_map (xs : List (Nat × List α)) :
    (xs.map (fun p => (p.1, BPayload.batch p.2))).filterMap payloadBatch =
      xs.map Prod.snd := by
  induction xs with
  | nil => rfl
  | cons p rest ih =>
    simp only [List.map_cons]
    rw [List.filterMap_cons_some (by rfl)]
    rw [ih]

/-- Flattening the completion-ordered batch results of an all-`vals`
run: each batch contributes its per-item successes contiguously and in
batch order. -/
lemma flattenB_map_entryOf (beh : Nat → BPayload α → Except String (BOut γ))
    (g : α → γ)
    (hbatch : ∀ id b, beh id (BPayload.batch b) = Except.ok (BOut.vals (b.map g))) :
    ∀ (q : List (Nat × BPayload α)),
      (∀ f ∈ q, ∃ c, f.2 = BPayload.batch c) →
      flattenB (q.map (entryOf beh)) =
        ((q.filterMap payloadBatch).map
          (fun c => c.map (fun a => Entry.ok (g a)))).flatten := by
  intro q
  induction q with
  | nil => intro _; rfl
  | cons f q2 ih =>
    intro hshape
    obtain ⟨c, hc⟩ := hshape f (List.mem_cons_self _ _)
    obtain ⟨fid, fp⟩ := f
    simp only at hc
    subst hc
    have hent : entryOf beh (fid, BPayload.batch c) = Entry.ok (BOut.vals (c.map g)) := by
      unfold entryOf
      rw [hbatch]
    simp only [List.map_cons, hent]
    rw [show flattenB (Entry.ok (BOut.vals (c.map g)) :: List.map (entryOf beh) q2) =
      (c.map g).map Entry.ok ++ flattenB (List.map (entryOf beh) q2) from rfl]
    rw [ih (fun f2 hf2 => hshape f2 (List.mem_cons_of_mem _ hf2))]
    rw [List.filterMap_cons_some (by rfl)]
    simp only [List.map_cons, List.flatten_cons, List.map_map]
    rfl

/-- C8: for a batched call (`batch_size = B > 1`): items are
partitioned into contiguous batches of size `B` with the last batch
possibly shorter (the chunks concatenate back to the items, every chunk
is nonempty with length ≤ B, and every chunk but the last has length
exactly B); per-batch allocation passes the maximum size hint within
the batch to the allocator (and `listMax` of a nonempty batch is that
batch's maximum); when the run completes without a call-level timeout
and every batch task returns the list of its items' outcomes, the
flattened output is the concatenation, in completion order, of the
per-batch outcome lists — so its length is exactly the number of items
and intra-batch order matches the input order; and a batch whose result
is not a Python list (a scalar success, an error record, a timeout
sentinel) is kept as a single unexpanded entry. -/
theorem claim_C8_batched_dispatch [Inhabited α] (sys : SysInfo) (tt : String)
    (mi : Bool) (items : List α) (B : Nat) (hB : 1 < B) (g : α → γ)
    (beh : Nat → BPayload α → Except String (BOut γ)) (hT : Bool) (ra : Nat)
    (sched : List SStep) :
    (chunkList B items).flatten = items ∧
    (∀ c ∈ chunkList B items, c ≠ [] ∧ c.length ≤ B) ∧
    (∀ i, i + 1 < (chunkList B items).length →
      ((chunkList B items).getD i []).length = B) ∧
    (∀ (bl : List (List Nat)) (i : Nat), i < (chunkList B items).length →
      (batchSubmissions sys tt mi (chunkList B items).length (some bl)).get? i =
        some (get_optimal_resource_allocation sys tt
          (some (listMax (bl.getD i []))) mi)) ∧
    (∀ l : List Nat, l ≠ [] → listMax l ∈ l ∧ ∀ x ∈ l, x ≤ listMax l) ∧
    ((∀ id p, ∃ v, beh id p = Except.ok v) →
      (∀ id b, beh id (BPayload.batch b) = Except.ok (BOut.vals (b.map g))) →
      (distribute_batched beh items B hT ra sched).2.2 = REnd.finished →
      ∃ bq : List (List α), List.Perm bq (chunkList B items) ∧
        (distribute_batched beh items B hT ra sched).1 =
          (bq.map (fun c => c.map (fun a => Entry.ok (g a)))).flatten ∧
        (distribute_batched beh items B hT ra sched).1.length = items.length) ∧
    (∀ (g0 : γ) (rest : List (Entry (BOut γ))),
      flattenB (Entry.ok (BOut.scalar g0) :: rest) = Entry.ok g0 :: flattenB rest) ∧
    (∀ (m : String) (rest : List (Entry (BOut γ))),
      flattenB (Entry.err m :: rest) = Entry.err m :: flattenB rest) ∧
    (∀ (rest : List (Entry (BOut γ))),
      flattenB (Entry.noneE :: rest) = Entry.noneE :: flattenB rest) := by
  have hB1 : 1 ≤ B := le_of_lt hB
  refine ⟨chunkList_flatten B hB1 items, chunkAux_mem B hB1 _ items,
    fun i hi => chunkAux_full B hB1 items.length items i (le_refl _) hi,
    ?_, listMax_spec, ?_,
    fun _ _ => rfl, fun _ _ => rfl, fun _ => rfl⟩
  · intro bl i hi
    exact batchSubmissions_get? sys tt mi _ bl i hi
  · intro hall hbatch hfin
    have hfin2 : (drain beh (fun c => (items.get? c).map BPayload.stray) hT sched
        (initBatched items B ra)).2 = REnd.finished := hfin
    obtain ⟨q, hq, hres⟩ := drain_results_perm beh
      (fun c => (items.get? c).map BPayload.stray) hT sched
      (initBatched items B ra) (Or.inr hall) hfin2
    have hq2 : List.Perm q ((chunkList B items).enum.map
        (fun p => (p.1, BPayload.batch p.2))) := by
      simpa [initBatched] using hq
    have hshape : ∀ f ∈ q, ∃ c, f.2 = BPayload.batch c := by
      intro f hf
      have hf2 := hq2.mem_iff.mp hf
      obtain ⟨p, _, hpe⟩ := List.mem_map.mp hf2
      exact ⟨p.2, by rw [← hpe]⟩
    have hres2 : (distribute_batched beh items B hT ra sched).1 =
        flattenB (List.map (entryOf beh) q) := by
      show flattenB (drain beh (fun c => (items.get? c).map BPayload.stray) hT sched
        (initBatched items B ra)).1.results = _
      rw [hres]
      simp [initBatched]
    have hflat := flattenB_map_entryOf beh g hbatch q hshape
    have hperm : List.Perm (q.filterMap payloadBatch) (chunkList B items) := by
      have h1 := hq2.filterMap payloadBatch
      rw [filterMap_payloadBatch_map ((chunkList B items).enum)] at h1
      rw [List.enum_map_snd] at h1
      exact h1
    refine ⟨q.filterMap payloadBatch, hperm, ?_, ?_⟩
    · rw [hres2, hflat]
    · rw [hres2, hflat]
      rw [List.length_flatten, List.map_map]
      have hmap : ((q.filterMap payloadBatch).map
          (List.length ∘ fun c => c.map (fun a => Entry.ok (g a)))) =
          (q.filterMap payloadBatch).map List.length := by
        refine List.map_congr_left ?_
        intro c _
        simp [Function.comp]
      rw [hmap]
      have hsum := (hperm.map List.length).sum_eq
      rw [hsum]
      have hlen : ((chunkList B items).map List.length).sum =
          (chunkList B items).flatten.length := (List.length_flatten _).symm
      rw [hlen, chunkList_flatten B hB1 items]

/-- Witness for C8: five items in batches of two, with a work function
mapping each item to ten times itself and an out-of-order schedule —
the flattened output keeps all five per-item results. -/
theorem claim_C8_batched_dispatch_witness :
    (distribute_batched
      (fun _ p => match p with
        | BPayload.batch b => (Except.ok (BOut.vals (b.map (fun a => a * 10)))
            : Except String (BOut Nat))
        | BPayload.stray a => Except.ok (BOut.vals [a * 10]))
      [1, 2, 3, 4, 5] 2 false 0
      [.complete 2 false, .complete 0 false, .complete 0 false]).1.length = 5 ∧
    (chunkList 2 [1, 2, 3, 4, 5]).flatten = [1, 2, 3, 4, 5] := by
  have h := claim_C8_batched_dispatch ⟨8, 1000⟩ ("default") false
    [1, 2, 3, 4, 5] 2 (by norm_num) (fun a => a * 10)
    (fun _ p => match p with
      | BPayload.batch b => (Except.ok (BOut.vals (b.map (fun a => a * 10)))
          : Except String (BOut Nat))
      | BPayload.stray a => Except.ok (BOut.vals [a * 10]))
    false 0 [.complete 2 false, .complete 0 false, .complete 0 false]
  obtain ⟨bq, _, _, hlen⟩ := h.2.2.2.2.2.1
    (fun id p => by cases p <;> exact ⟨_, rfl⟩) (fun id b => rfl) rfl
  exact ⟨hlen, h.1⟩

end RayCluster
